import Mathlib

/-!
Verification of the video-editor-ai repository's core: the caption data
model, the atempo decomposition, the SRT writer, the four stage workers
(Transcribe, Translate, Synthesize/TTS, Export) and the ffmpeg export
helper.  Python floats are modelled as exact rationals (ℚ); every
division that the source performs is by a power of two or is immediately
truncated to an integer percentage, so the claims checked here are
robust to that modelling choice.  Each worker's observable behaviour
(Qt signal emissions, external calls, sleeps) is modelled as a trace of
events produced by a function of the worker's inputs and of an oracle
describing the external services' responses.
-/

/-! ### Caption data model (src/app/models/caption.py) -/

/-- One subtitle/caption segment, mirroring the `Caption` dataclass.
`end_` stands for the Python field `end` (a reserved word in Lean);
`tts_audio_path = none` models both Python `None` and the empty path. -/
structure Caption where
  index : ℤ
  start : ℚ
  end_ : ℚ
  original_text : String
  khmer_text : String := ""
  speed : ℚ := 1
  offset : ℚ := 0
  tts_audio_path : Option String := none
  voice : String := ""
deriving DecidableEq

/-- `Caption.effective_start`: `max(0.0, self.start + self.offset)`. -/
def Caption.effective_start (c : Caption) : ℚ :=
  max 0 (c.start + c.offset)

/-- `Caption.duration`: `self.end - self.start`. -/
def Caption.duration (c : Caption) : ℚ :=
  c.end_ - c.start

/-! ### Atempo decomposition (src/app/utils/ffmpeg_utils.py, _build_atempo_chain)

The first `while` loop of `_build_atempo_chain`: while the remaining
factor exceeds 2.0, emit a 2.0 factor and halve the remainder.  Returns
(emitted factors, final remainder). -/

/-- `while remaining > 2.0: filters.append(2.0); remaining /= 2.0`. -/
def halveSteps (r : ℚ) : List ℚ × ℚ :=
  if h : 2 < r then
    let p := halveSteps (r / 2)
    (2 :: p.1, p.2)
  else ([], r)
termination_by (Int.ceil r).toNat
decreasing_by
  have h1 : r / 2 ≤ r - 1 := by linarith
  have h2 : (⌈r / 2⌉ : ℤ) ≤ ⌈r - 1⌉ := Int.ceil_le_ceil h1
  have h3 : (⌈r - 1⌉ : ℤ) = ⌈r⌉ - 1 := Int.ceil_sub_one r
  have h4 : (3 : ℤ) ≤ ⌈r⌉ := by
    have h5 : ((2 : ℤ) : ℚ) < r := by push_cast; exact h
    have := Int.lt_ceil.mpr h5
    omega
  omega

/-- `while remaining < 0.5: filters.append(0.5); remaining /= 0.5`.
The Python loop diverges for `remaining ≤ 0` (never reached: tempo is
clamped to [0.25, 4.0] upstream); the guard `0 < r` makes the Lean
function total and agrees with the source on every terminating input. -/
def doubleSteps (r : ℚ) : List ℚ × ℚ :=
  if h : 0 < r ∧ r < 1/2 then
    let p := doubleSteps (r / (1/2))
    ((1/2 : ℚ) :: p.1, p.2)
  else ([], r)
termination_by (Int.ceil (1/r)).toNat
decreasing_by
  obtain ⟨hpos, hlt⟩ := h
  have hr2 : (1 : ℚ) / (r / (1/2)) = (1/r) / 2 := by
    field_simp
  have hgt : (2 : ℚ) < 1/r := by
    rw [lt_div_iff₀ hpos]
    linarith
  have h1 : (1/r) / 2 ≤ (1/r) - 1 := by linarith
  have h2 : (⌈(1/r) / 2⌉ : ℤ) ≤ ⌈(1/r) - 1⌉ := Int.ceil_le_ceil h1
  have h3 : (⌈(1/r) - 1⌉ : ℤ) = ⌈1/r⌉ - 1 := Int.ceil_sub_one _
  have h4 : (3 : ℤ) ≤ ⌈1/r⌉ := by
    have h5 : ((2 : ℤ) : ℚ) < 1/r := by push_cast; exact hgt
    have := Int.lt_ceil.mpr h5
    omega
  rw [hr2]
  omega

/-- The list of atempo filter values emitted by `_build_atempo_chain`
for a given speed: nothing for speed 1.0, otherwise the 2.0 factors,
then the 0.5 factors, then the leftover remainder.  (The Python
function threads these through `audio_node.filter("atempo", f)`; only
the factor list is relevant here.) -/
def buildAtempoFactors (speed : ℚ) : List ℚ :=
  if speed = 1 then []
  else
    let p1 := halveSteps speed
    let p2 := doubleSteps p1.2
    p1.1 ++ p2.1 ++ [p2.2]

theorem halveSteps_spec (r : ℚ) :
    (halveSteps r).1.prod * (halveSteps r).2 = r ∧
    (∀ f ∈ (halveSteps r).1, f = 2) ∧
    (halveSteps r).2 ≤ 2 ∧
    ((halveSteps r).2 = r ∨ 1 < (halveSteps r).2) := by
  induction r using halveSteps.induct with
  | case1 r h ih =>
    rw [halveSteps]
    simp only [dif_pos h]
    obtain ⟨ih1, ih2, ih3, ih4⟩ := ih
    refine ⟨?_, ?_, ih3, ?_⟩
    · simp only [List.prod_cons]
      rw [mul_assoc, ih1]
      ring
    · intro f hf
      rcases List.mem_cons.mp hf with h' | h'
      · exact h'
      · exact ih2 f h'
    · right
      rcases ih4 with h' | h'
      · rw [h']; linarith
      · exact h'
  | case2 r h =>
    rw [halveSteps]
    simp only [dif_neg h]
    push_neg at h
    refine ⟨by simp, by simp, h, by simp⟩

theorem doubleSteps_spec (r : ℚ) (hpos : 0 < r) :
    (doubleSteps r).1.prod * (doubleSteps r).2 = r ∧
    (∀ f ∈ (doubleSteps r).1, f = 1/2) ∧
    1/2 ≤ (doubleSteps r).2 ∧
    ((doubleSteps r).2 = r ∨ (doubleSteps r).2 < 1) ∧
    0 < (doubleSteps r).2 := by
  induction r using doubleSteps.induct with
  | case1 r h ih =>
    obtain ⟨h1, h2⟩ := h
    rw [doubleSteps]
    simp only [dif_pos (⟨h1, h2⟩ : 0 < r ∧ r < 1/2)]
    have hpos' : 0 < r / (1/2) := by positivity
    obtain ⟨ih1, ih2, ih3, ih4, ih5⟩ := ih hpos'
    refine ⟨?_, ?_, ih3, ?_, ih5⟩
    · simp only [List.prod_cons]
      rw [mul_assoc, ih1]
      ring
    · intro f hf
      rcases List.mem_cons.mp hf with h' | h'
      · exact h'
      · exact ih2 f h'
    · right
      rcases ih4 with h' | h'
      · rw [h']
        rw [div_div_eq_mul_div]
        linarith
      · exact h'
  | case2 r h =>
    rw [doubleSteps]
    simp only [dif_neg h]
    push_neg at h
    refine ⟨by simp, by simp, ?_, by simp, hpos⟩
    exact h hpos

/-- C1: for every tempo `t ∈ [0.25, 4.0]` the factor chain emitted by
`_build_atempo_chain` multiplies back to exactly `t` and every factor
lies in `[0.5, 2.0]`; moreover speed 3.0 yields `[2.0, 1.5]`,
speed 0.25 yields the 0.5-factor sequence `[0.5, 0.5]` (product 0.25),
and speed exactly 1.0 yields no factors. -/
theorem C1_tempo_decomposition :
    (∀ t : ℚ, 1/4 ≤ t → t ≤ 4 →
      (buildAtempoFactors t).prod = t ∧
      ∀ f ∈ buildAtempoFactors t, 1/2 ≤ f ∧ f ≤ 2) ∧
    buildAtempoFactors 3 = [2, 3/2] ∧
    buildAtempoFactors (1/4) = [1/2, 1/2] ∧
    (buildAtempoFactors (1/4)).prod = 1/4 ∧
    buildAtempoFactors 1 = [] := by
  have hconc3 : buildAtempoFactors 3 = [2, 3/2] := by
    unfold buildAtempoFactors
    norm_num
    rw [halveSteps]
    norm_num
    rw [halveSteps]
    norm_num
    rw [doubleSteps]
    norm_num
  have hconc4 : buildAtempoFactors (1/4) = [1/2, 1/2] := by
    unfold buildAtempoFactors
    norm_num
    rw [halveSteps]
    norm_num
    rw [doubleSteps]
    norm_num
    rw [doubleSteps]
    norm_num
  refine ⟨?_, hconc3, hconc4, by rw [hconc4]; norm_num, by unfold buildAtempoFactors; norm_num⟩
  intro t h1 h2
  unfold buildAtempoFactors
  by_cases ht : t = 1
  · simp [ht]
  · simp only [if_neg ht]
    have htpos : 0 < t := by linarith
    obtain ⟨hh1, hh2, hh3, hh4⟩ := halveSteps_spec t
    have hspos : 0 < (halveSteps t).2 := by
      rcases hh4 with h' | h'
      · rw [h']; exact htpos
      · linarith
    obtain ⟨hd1, hd2, hd3, hd4, hd5⟩ := doubleSteps_spec (halveSteps t).2 hspos
    constructor
    · rw [List.prod_append, List.prod_append, List.prod_cons, List.prod_nil]
      rw [mul_one, mul_assoc, hd1, hh1]
    · intro f hf
      simp only [List.mem_append, List.mem_cons, List.mem_singleton] at hf
      rcases hf with (hf | hf) | hf
      · rw [hh2 f hf]; norm_num
      · rw [hd2 f hf]; norm_num
      · rcases hf with hf | hf
        · subst hf
          refine ⟨hd3, ?_⟩
          rcases hd4 with h' | h'
          · rw [h']; exact hh3
          · linarith
        · simp at hf

/-- Witness for C1: instantiation at the concrete tempo 3.0. -/
theorem C1_tempo_decomposition_witness :
    (buildAtempoFactors 3).prod = 3 :=
  (C1_tempo_decomposition.1 3 (by norm_num) (by norm_num)).1

/-- C8: `effectiveStart = max(0, start + offset)` with the two concrete
spec examples, and `duration = end - start`. -/
theorem C8_effective_start :
    (∀ c : Caption, c.effective_start = max 0 (c.start + c.offset) ∧
      c.duration = c.end_ - c.start) ∧
    (Caption.effective_start
      { index := 1, start := 10, end_ := 12, original_text := "", offset := -15 } = 0) ∧
    (Caption.effective_start
      { index := 1, start := 10, end_ := 12, original_text := "", offset := 5 } = 15) := by
  refine ⟨fun c => ⟨rfl, rfl⟩, ?_, ?_⟩
  · norm_num [Caption.effective_start]
  · norm_num [Caption.effective_start]

/-! ### SRT writing (src/app/utils/srt_utils.py) -/

/-- Python's built-in `round` (banker's rounding, half to even),
used by `seconds_to_ts` as `round(seconds * 1000)`. -/
def pyRound (q : ℚ) : ℤ :=
  let f := ⌊q⌋
  let frac := q - (f : ℚ)
  if frac < 1/2 then f
  else if 1/2 < frac then f + 1
  else if f % 2 = 0 then f else f + 1

/-- Zero-pad to width 2, as Python's `f"{n:02d}"` for nonnegative `n`. -/
def pad2 (n : ℕ) : String :=
  if n < 10 then "0" ++ toString n else toString n

/-- Zero-pad to width 3, as Python's `f"{n:03d}"` for nonnegative `n`. -/
def pad3 (n : ℕ) : String :=
  if n < 10 then "00" ++ toString n
  else if n < 100 then "0" ++ toString n
  else toString n

/-- `seconds_to_ts`: convert seconds to an SRT timestamp `HH:MM:SS,mmm`.
The source asserts `seconds >= 0` (negative input raises), so the
`Int.toNat` clamp below is never exercised on inputs the program
accepts. -/
def seconds_to_ts (seconds : ℚ) : String :=
  let ms0 := (pyRound (seconds * 1000)).toNat
  let h := ms0 / 3600000
  let r1 := ms0 - h * 3600000
  let m := r1 / 60000
  let r2 := r1 - m * 60000
  let s := r2 / 1000
  let ms := r2 - s * 1000
  pad2 h ++ ":" ++ pad2 m ++ ":" ++ pad2 s ++ "," ++ pad3 ms

/-- The text written for one caption: `(cap.khmer_text or
cap.original_text) if use_khmer else cap.original_text`. -/
def srtText (cap : Caption) (use_khmer : Bool) : String :=
  if use_khmer then
    (if cap.khmer_text = "" then cap.original_text else cap.khmer_text)
  else cap.original_text

/-- One block written by `write_srt` for the caption at 1-based
position `n` of the list (`for i, cap in enumerate(captions, start=1)`). -/
def srtBlock (n : ℕ) (cap : Caption) (use_khmer : Bool) : String :=
  toString n ++ "\n" ++ seconds_to_ts cap.start ++ " --> " ++
    seconds_to_ts cap.end_ ++ "\n" ++ srtText cap use_khmer ++ "\n\n"

/-- The blocks written by `write_srt`, with the running enumeration
counter made explicit. -/
def srtBlocksFrom (n : ℕ) (use_khmer : Bool) : List Caption → List String
  | [] => []
  | c :: cs => srtBlock n c use_khmer :: srtBlocksFrom (n + 1) use_khmer cs

/-- The full file content produced by `write_srt` (the file holds the
concatenation of the blocks, nothing else). -/
def write_srt_content (caps : List Caption) (use_khmer : Bool) : String :=
  String.join (srtBlocksFrom 1 use_khmer caps)

/-- Modelled from the spec for comparison (claim C7's wording): a file
whose blocks are numbered by each segment's stored `index` field rather
than by position. -/
def claimedSrtContent (caps : List Caption) : String :=
  String.join (caps.map fun c =>
    toString c.index ++ "\n" ++ seconds_to_ts c.start ++ " --> " ++
      seconds_to_ts c.end_ ++ "\n" ++ srtText c true ++ "\n\n")

/-! ### Worker event traces (src/app/workers/) -/

/-- Observable behaviour of a worker run: Qt signal emissions
(`progress`, `caption_translated`, `caption_skipped`,
`caption_audio_ready`, `captions_ready`, `done`, `error`, `finished`),
external calls, and sleeps. -/
inductive Ev where
  | progress (pct : ℤ)
  | callTranslate (pos : ℕ) (attempt : ℕ)
  | captionTranslated (idx : ℤ) (text : String)
  | captionSkipped (idx : ℤ)
  | callTts (pos : ℕ) (attempt : ℕ)
  | captionAudioReady (idx : ℤ)
  | callTranscribe
  | captionsReady (n : ℕ)
  | callFfmpegPremix
  | callFfmpegEncode
  | sleep (secs : ℚ)
  | done (path : String)
  | errorMsg (msg : String)
  | finished
deriving DecidableEq

/-- The progress percentages in a trace, in emission order. -/
def progressVals (evs : List Ev) : List ℤ :=
  evs.filterMap fun e =>
    match e with
    | Ev.progress p => some p
    | _ => none

/-- Result of one `translate_text` call: a returned string (possibly
empty, which Python treats as falsy) or a raised exception. -/
inductive TransResult where
  | ok (s : String)
  | exn (msg : String)
deriving DecidableEq

def TransResult.isExn : TransResult → Bool
  | TransResult.exn _ => true
  | TransResult.ok _ => false

namespace TranslateWorker

/-- `MAX_RETRIES = 3`. -/
def MAX_RETRIES : ℕ := 3

/-- `RETRY_DELAY = 2.0` seconds. -/
def RETRY_DELAY : ℚ := 2

/-- The retry loop for one caption (`for attempt in range(1,
MAX_RETRIES + 1)`), driven by the oracle `o pos attempt`: breaks with
the first truthy result, sleeps `RETRY_DELAY` after a raising attempt
that is not the last, and returns `none` when all attempts are
exhausted. -/
def attemptsOn (o : ℕ → ℕ → TransResult) (pos : ℕ) :
    List ℕ → List Ev × Option String
  | [] => ([], none)
  | a :: rest =>
    match o pos a with
    | TransResult.ok s =>
      if s = "" then
        let p := attemptsOn o pos rest
        (Ev.callTranslate pos a :: p.1, p.2)
      else ([Ev.callTranslate pos a], some s)
    | TransResult.exn _ =>
      let p := attemptsOn o pos rest
      (Ev.callTranslate pos a ::
        ((if a < MAX_RETRIES then [Ev.sleep RETRY_DELAY] else []) ++ p.1), p.2)

/-- The main loop of `TranslateWorker.run`, from position `i`:
checks the cancellation flag `c i` at the top of each iteration
(`return` on cancellation), retries, emits the per-caption signal and
percentage, and ends with `progress.emit(100)`. -/
def runAux (o : ℕ → ℕ → TransResult) (c : ℕ → Bool) (total : ℕ) :
    ℕ → List Caption → List Ev
  | _, [] => [Ev.progress 100]
  | i, cap :: rest =>
    if c i then []
    else
      let p := attemptsOn o i ((List.range MAX_RETRIES).map fun k => k + 1)
      p.1 ++
        (match p.2 with
         | some s => [Ev.captionTranslated cap.index s]
         | none => [Ev.captionSkipped cap.index]) ++
        [Ev.progress (((i + 1) * 100 / total : ℕ) : ℤ)] ++
        runAux o c total (i + 1) rest

/-- `TranslateWorker.run`: the whole slot.  `total = len(captions) or 1`;
the `finally` block emits `finished` on every path.  No modelled
statement in the body raises, so the `except` branch (the `error`
signal) is unreachable. -/
def run (o : ℕ → ℕ → TransResult) (c : ℕ → Bool) (caps : List Caption) :
    List Ev :=
  runAux o c (if caps.length = 0 then 1 else caps.length) 0 caps ++ [Ev.finished]

/-- `cancel` sets `self._cancelled = True`. -/
def cancel (_ : Bool) : Bool := true

/-- The methods defined by the `TranslateWorker` class. -/
def methods : List String := ["__init__", "cancel", "run"]

end TranslateWorker

namespace TTSWorker

/-- `max_retries = 5` (local constant in `TTSWorker.run`). -/
def max_retries : ℕ := 5

/-- Fixed stand-in for the text of the exception raised when the last
synthesis attempt fails (its exact text does not matter here). -/
def failMsg : String := "edge-tts request failed"

/-- The retry loop for one caption (`for attempt in range(max_retries)`),
driven by the success oracle `o pos attempt`: breaks on success,
re-raises on the last failed attempt (second component `false`), and
otherwise sleeps `2 ** attempt` before retrying. -/
def attemptsOn (o : ℕ → ℕ → Bool) (pos : ℕ) : List ℕ → List Ev × Bool
  | [] => ([], false)
  | a :: rest =>
    if o pos a then ([Ev.callTts pos a], true)
    else if a = max_retries - 1 then ([Ev.callTts pos a], false)
    else
      let p := attemptsOn o pos rest
      (Ev.callTts pos a :: Ev.sleep ((2 : ℚ) ^ a) :: p.1, p.2)

/-- The main loop of `TTSWorker.run` from position `i`: captions with
empty dub text only emit their percentage (`continue` skips the
inter-request delay); otherwise the retry loop runs, and on success the
`caption_audio_ready` signal, the percentage, and — except after the
last caption — a 0.5 s inter-request sleep follow.  An exhausted retry
loop aborts the iteration with an error (second component). -/
def runAux (o : ℕ → ℕ → Bool) (total : ℕ) :
    ℕ → List Caption → List Ev × Option String
  | _, [] => ([Ev.progress 100], none)
  | i, cap :: rest =>
    if cap.khmer_text = "" then
      let p := runAux o total (i + 1) rest
      (Ev.progress (((i + 1) * 100 / total : ℕ) : ℤ) :: p.1, p.2)
    else
      let a := attemptsOn o i (List.range max_retries)
      if a.2 then
        let p := runAux o total (i + 1) rest
        (a.1 ++
          [Ev.captionAudioReady cap.index,
           Ev.progress (((i + 1) * 100 / total : ℕ) : ℤ)] ++
          (if rest.isEmpty then [] else [Ev.sleep (1/2)]) ++ p.1, p.2)
      else (a.1, some failMsg)

/-- `TTSWorker.run`: the whole slot.  The `except` branch emits `error`
with the exception text; the `finally` block emits `finished` on every
path.  The class defines no `cancel` method (see `methods`). -/
def run (o : ℕ → ℕ → Bool) (caps : List Caption) : List Ev :=
  let p := runAux o (if caps.length = 0 then 1 else caps.length) 0 caps
  p.1 ++
    (match p.2 with
     | some m => [Ev.errorMsg m]
     | none => []) ++ [Ev.finished]

/-- The methods defined by the `TTSWorker` class: no `cancel`. -/
def methods : List String := ["__init__", "run"]

end TTSWorker

/-- One segment returned by the Whisper model
(`result["segments"]` entries, already stripped). -/
structure TSeg where
  start : ℚ
  end_ : ℚ
  text : String
deriving DecidableEq

namespace TranscribeWorker

/-- `TranscribeWorker.run`: progress 5, model load (`load_model`),
progress 20, the blocking transcription call, then one percentage per
segment (`20 + int(i / total * 75)` for `i = 1..n`, `total = len or 1`),
`progress(100)` and `captions_ready`.  A raised exception anywhere is
caught by the `except` branch (the `error` signal); `finally` emits
`finished` on every path.  The class defines no `cancel` method. -/
def run (loadRes : Except String Unit) (transRes : Except String (List TSeg)) :
    List Ev :=
  Ev.progress 5 ::
    match loadRes with
    | Except.error m => [Ev.errorMsg m, Ev.finished]
    | Except.ok _ =>
      Ev.progress 20 :: Ev.callTranscribe ::
        match transRes with
        | Except.error m => [Ev.errorMsg m, Ev.finished]
        | Except.ok segs =>
          ((List.range segs.length).map fun k =>
            Ev.progress (20 + (((k + 1) * 75 /
              (if segs.length = 0 then 1 else segs.length) : ℕ) : ℤ))) ++
            [Ev.progress 100, Ev.captionsReady segs.length, Ev.finished]

/-- The methods defined by the `TranscribeWorker` class: no `cancel`. -/
def methods : List String := ["__init__", "run"]

end TranscribeWorker

/-! ### Export (src/app/utils/ffmpeg_utils.py export_video and
src/app/workers/export_worker.py) -/

/-- The environment of one `export_video` call: the caption list, which
files exist on disk, whether the pre-mix subprocess succeeds, the video
duration, the elapsed times parsed from the encoder's stderr
(`time=HH:MM:SS.ms` lines, always nonnegative, in emission order), and
whether the encoder exits with code 0. -/
structure ExportEnv where
  captions : List Caption
  fileExists : String → Bool
  premixOk : Bool
  duration : ℚ
  encodeTimes : List ℚ
  encodeOk : Bool
  original_volume : ℚ := 3/10
  mute_during_captions : Bool := false

/-- `cap.tts_audio_path and os.path.exists(cap.tts_audio_path)`. -/
def capHasTts (fe : String → Bool) (cap : Caption) : Bool :=
  match cap.tts_audio_path with
  | some p => fe p
  | none => false

/-- `has_tts = any(...)` in `export_video`. -/
def hasTtsB (env : ExportEnv) : Bool :=
  env.captions.any (capHasTts env.fileExists)

/-- The audio filter graph of the final encode: original-track volume
multiplier, whether per-caption mute windows were inserted, and whether
the pre-mixed dub track is one of the `amix` inputs. -/
structure AudioGraph where
  origVolume : ℚ
  ducked : Bool
  dubMixed : Bool
deriving DecidableEq

/-- Result of `export_video`: the raw progress-callback/external-call
trace, the raised error (if any), whether the pre-mix intermediate file
still exists on disk when the function returns, and the audio graph of
the final encode. -/
structure ExportOut where
  events : List Ev
  err : Option String
  tmpLeft : Bool
  audio : AudioGraph
deriving DecidableEq

/-- Fixed stand-in for `"ffmpeg exited with code …"` plus the stderr
tail (its exact text does not matter here). -/
def ffmpegErrMsg : String := "ffmpeg exited with a non-zero code"

/-- The percentages pushed to the progress callback while the encoder
runs: for each parsed elapsed time `t`, provided the probed duration is
truthy (nonzero), `base_pct + int(min(t / duration, 1.0) * span_pct *
0.99)` with `span_pct = 100 - base_pct`.  Python's `int` truncates;
the argument is nonnegative, so truncation equals `Int.floor`. -/
def encodeProgressList (base : ℤ) (duration : ℚ) (times : List ℚ) : List Ev :=
  times.filterMap fun t =>
    if duration = 0 then none
    else some (Ev.progress (base +
      ⌊min (t / duration) 1 * ((100 : ℚ) - (base : ℚ)) * (99/100)⌋))

/-- `export_video`.  Pass 1 (only when some caption has a present audio
file): `progress(10)`, the pre-mix subprocess, `progress(30)`; a
pre-mix failure is logged, sets `tmp_tts_path = None` and falls through.
Pass 2: the encode subprocess with its progress stream, `progress(100)`
on exit code 0, a `RuntimeError` otherwise.  The `finally` block
removes the temp file only when `tmp_tts_path` is still set — after a
pre-mix failure it is `None`, so the file created by `mkstemp` is left
on disk (`tmpLeft`). -/
def exportVideo (env : ExportEnv) : ExportOut :=
  let has_tts := hasTtsB env
  let preEvents : List Ev :=
    if has_tts then [Ev.progress 10, Ev.callFfmpegPremix, Ev.progress 30] else []
  let tmpStillSet := has_tts && env.premixOk
  let base : ℤ := if has_tts then 30 else 5
  let encodeEvs :=
    Ev.callFfmpegEncode :: encodeProgressList base env.duration env.encodeTimes
  let audio : AudioGraph :=
    { origVolume := env.original_volume
      ducked := env.mute_during_captions && has_tts
      dubMixed := tmpStillSet }
  { events := preEvents ++ encodeEvs ++ (if env.encodeOk then [Ev.progress 100] else [])
    err := if env.encodeOk then none else some ffmpegErrMsg
    tmpLeft := has_tts && !env.premixOk
    audio := audio }

namespace ExportWorker

/-- The progress mapping of `ExportWorker`'s callback:
`lambda pct: self.progress.emit(5 + int(pct * 0.95))` (the argument is
a nonnegative integer, so `int` truncation equals `Int.floor`). -/
def cb (p : ℤ) : ℤ := 5 + ⌊(p : ℚ) * (95/100)⌋

/-- Lifts `cb` over a trace: progress events pass through the worker's
lambda, everything else is unchanged. -/
def mapCb : Ev → Ev
  | Ev.progress p => Ev.progress (cb p)
  | e => e

/-- `ExportWorker.run`: checkpoint `c 0` before any work (`return`
before the SRT write), the SRT write and `progress(5)`, checkpoint
`c 1` before the ffmpeg export, then `export_video` with the mapped
progress callback, `done(path)` on success or `error(msg)` on an
exception, and `finished` from the `finally` block on every path. -/
def run (env : ExportEnv) (c : ℕ → Bool) (outPath : String) : List Ev :=
  if c 0 then [Ev.finished]
  else if c 1 then [Ev.progress 5, Ev.finished]
  else
    let o := exportVideo env
    Ev.progress 5 :: (o.events.map mapCb ++
      (match o.err with
       | none => [Ev.done outPath]
       | some m => [Ev.errorMsg m]) ++ [Ev.finished])

/-- `cancel` sets `self._cancelled = True`. -/
def cancel (_ : Bool) : Bool := true

/-- The methods defined by the `ExportWorker` class. -/
def methods : List String := ["__init__", "cancel", "run"]

end ExportWorker

/-! ### Claim C10: empty timeline -/

/-- C10: with an empty timeline both the Translate and the Synthesize
job emit `progress(100)` and `finished` and nothing else — no error,
no division by zero (the per-segment divisor is `len or 1`). -/
theorem C10_empty_timeline :
    (∀ o c, TranslateWorker.run o c [] = [Ev.progress 100, Ev.finished]) ∧
    (∀ o, TTSWorker.run o [] = [Ev.progress 100, Ev.finished]) := by
  exact ⟨fun o c => rfl, fun o => rfl⟩

/-! ### Claim C5: intermediate-file cleanup -/

/-- A concrete export environment: one caption with a present audio
file, pre-mix fails, encode succeeds. -/
def envLeak : ExportEnv :=
  { captions := [{ index := 1, start := 0, end_ := 2, original_text := "x",
                   tts_audio_path := some "/tmp/a.mp3" }]
    fileExists := fun _ => true
    premixOk := false
    duration := 10
    encodeTimes := []
    encodeOk := true }

/-- C5 (failing input): when the pre-mix pass fails, `export_video`
sets `tmp_tts_path = None` before the `finally` cleanup runs, so the
file created by `mkstemp` is still on disk when the function returns —
the claim's "no longer exists on every exit path" is violated on the
pre-mix-failure path (while the success and encode-failure paths do
clean up). -/
theorem C5_cleanup_code_bug :
    (exportVideo envLeak).tmpLeft = true ∧
    (exportVideo { envLeak with premixOk := true }).tmpLeft = false ∧
    (exportVideo { envLeak with premixOk := true, encodeOk := false }).tmpLeft = false := by
  exact ⟨rfl, rfl, rfl⟩

/-! ### Claim C9: pre-mix failure is absorbed -/

/-- C9: a pre-mix failure does not fail the export: the encode still
runs, the outcome depends only on the encoder's exit code, and the
final audio graph is the volume-adjusted (optionally ducked) original
track with no dub track mixed in. -/
theorem C9_premix_failure_absorbed (env : ExportEnv)
    (h1 : hasTtsB env = true) (h2 : env.premixOk = false) :
    (exportVideo env).audio.dubMixed = false ∧
    (exportVideo env).audio.origVolume = env.original_volume ∧
    (exportVideo env).audio.ducked = (env.mute_during_captions && hasTtsB env) ∧
    Ev.callFfmpegEncode ∈ (exportVideo env).events ∧
    (exportVideo env).err = (if env.encodeOk then none else some ffmpegErrMsg) := by
  unfold exportVideo
  refine ⟨by simp [h1, h2], rfl, rfl, ?_, rfl⟩
  simp [h1]

/-- Witness for C9 at the concrete environment `envLeak`. -/
theorem C9_premix_failure_absorbed_witness :
    (exportVideo envLeak).audio.dubMixed = false :=
  (C9_premix_failure_absorbed envLeak rfl rfl).1

/-! ### Claim C6: cancellation contract -/

lemma translate_attempts_call_pos (o : ℕ → ℕ → TransResult) (i p a : ℕ)
    (atts : List ℕ) :
    Ev.callTranslate p a ∈ (TranslateWorker.attemptsOn o i atts).1 → p = i := by
  induction atts with
  | nil => simp [TranslateWorker.attemptsOn]
  | cons b rest ih =>
    intro hmem
    rw [TranslateWorker.attemptsOn] at hmem
    rcases hr : o i b with s | m
    · rw [hr] at hmem
      by_cases hs : s = ""
      · simp only [if_pos hs] at hmem
        rcases List.mem_cons.mp hmem with h' | h'
        · injection h' with h1 h2
        · exact ih h'
      · simp only [if_neg hs] at hmem
        rcases List.mem_cons.mp hmem with h' | h'
        · injection h' with h1 h2
        · simp at h'
    · rw [hr] at hmem
      rcases List.mem_cons.mp hmem with h' | h'
      · injection h' with h1 h2
      · rcases List.mem_append.mp h' with h'' | h''
        · by_cases hb : b < TranslateWorker.MAX_RETRIES
          · simp [if_pos hb] at h''
          · simp [if_neg hb] at h''
        · exact ih h''

lemma translate_call_not_cancelled (o : ℕ → ℕ → TransResult) (c : ℕ → Bool)
    (total p a : ℕ) :
    ∀ (i : ℕ) (l : List Caption),
      Ev.callTranslate p a ∈ TranslateWorker.runAux o c total i l → c p = false := by
  intro i l
  induction l generalizing i with
  | nil => simp [TranslateWorker.runAux]
  | cons cap rest ih =>
    intro hmem
    rw [TranslateWorker.runAux] at hmem
    by_cases hci : c i
    · simp [if_pos hci] at hmem
    · simp only [if_neg hci] at hmem
      rcases List.mem_append.mp hmem with h' | h'
      · rcases List.mem_append.mp h' with h'' | h''
        · rcases List.mem_append.mp h'' with h3 | h3
          · have := translate_attempts_call_pos o i p a _ h3
            subst this
            simpa using hci
          · rcases hx : (TranslateWorker.attemptsOn o i
              ((List.range TranslateWorker.MAX_RETRIES).map fun k => k + 1)).2 with _ | s
            · rw [hx] at h3; simp at h3
            · rw [hx] at h3; simp at h3
        · simp at h''
      · exact ih (i + 1) h'

/-- C6 counterexample: the Synthesize (`TTSWorker`) and Transcribe
(`TranscribeWorker`) classes define no `cancel` method at all, so "each
of the four stage jobs provides a cancel() operation" is false. -/
theorem C6_counterexample :
    "cancel" ∉ TTSWorker.methods ∧ "cancel" ∉ TranscribeWorker.methods := by
  decide

/-- C6 amended: the Translate and Export jobs provide `cancel()`, it is
idempotent, and after it is requested the job makes no external call
from its next checkpoint on — for Translate from any per-caption
checkpoint, for Export whether the flag is observed at the first
checkpoint (before the SRT write; the run is just `finished`) or at the
second (after the SRT write, before any ffmpeg call; the run is
`progress(5)` then `finished`) — in particular cancelling before the
first checkpoint means zero external calls; Transcribe and Synthesize
provide no `cancel()` operation. -/
theorem C6_cancellation_amended :
    "cancel" ∈ TranslateWorker.methods ∧ "cancel" ∈ ExportWorker.methods ∧
    "cancel" ∉ TranscribeWorker.methods ∧ "cancel" ∉ TTSWorker.methods ∧
    (∀ s, TranslateWorker.cancel (TranslateWorker.cancel s) = TranslateWorker.cancel s) ∧
    (∀ s, ExportWorker.cancel (ExportWorker.cancel s) = ExportWorker.cancel s) ∧
    (∀ o c caps j, (∀ k, j ≤ k → c k = true) →
      ∀ p a, j ≤ p → Ev.callTranslate p a ∉ TranslateWorker.run o c caps) ∧
    (∀ o caps p a, Ev.callTranslate p a ∉ TranslateWorker.run o (fun _ => true) caps) ∧
    (∀ env c path, c 0 = true → ExportWorker.run env c path = [Ev.finished]) ∧
    (∀ env c path, c 1 = true →
      ExportWorker.run env c path = [Ev.finished] ∨
      ExportWorker.run env c path = [Ev.progress 5, Ev.finished]) ∧
    (∀ env c path, c 1 = true →
      Ev.callFfmpegPremix ∉ ExportWorker.run env c path ∧
      Ev.callFfmpegEncode ∉ ExportWorker.run env c path) := by
  refine ⟨by decide, by decide, by decide, by decide, fun s => rfl, fun s => rfl,
    ?_, ?_, ?_, ?_, ?_⟩
  · intro o c caps j hc p a hp hmem
    rw [TranslateWorker.run] at hmem
    rcases List.mem_append.mp hmem with h' | h'
    · have := translate_call_not_cancelled o c _ p a 0 caps h'
      rw [hc p hp] at this
      exact absurd this (by simp)
    · simp at h'
  · intro o caps p a hmem
    rw [TranslateWorker.run] at hmem
    rcases List.mem_append.mp hmem with h' | h'
    · have := translate_call_not_cancelled o (fun _ => true) _ p a 0 caps h'
      simp at this
    · simp at h'
  · intro env c path hc
    rw [ExportWorker.run, if_pos hc]
  · intro env c path hc
    rw [ExportWorker.run]
    by_cases h0 : c 0
    · rw [if_pos h0]
      exact Or.inl rfl
    · rw [if_neg h0, if_pos hc]
      exact Or.inr rfl
  · intro env c path hc
    rw [ExportWorker.run]
    by_cases h0 : c 0
    · rw [if_pos h0]
      exact ⟨by simp, by simp⟩
    · rw [if_neg h0, if_pos hc]
      exact ⟨by simp, by simp⟩

/-- Witness for C6 (amended): with the flag raised from the start, a
one-caption Translate run makes no call to the translation service. -/
theorem C6_cancellation_amended_witness :
    Ev.callTranslate 0 1 ∉ TranslateWorker.run (fun _ _ => TransResult.ok "x")
      (fun _ => true)
      [{ index := 1, start := 0, end_ := 1, original_text := "a" }] :=
  C6_cancellation_amended.2.2.2.2.2.2.1
    (fun _ _ => TransResult.ok "x") (fun _ => true)
    [{ index := 1, start := 0, end_ := 1, original_text := "a" }] 0
    (fun _ _ => rfl) 0 1 (Nat.le_refl 0)

/-! ### Claim C7: sidecar subtitle file -/

lemma pyRound_zero_mul : pyRound (0 * 1000) = 0 := by norm_num [pyRound]

lemma pyRound_one_mul : pyRound (1 * 1000) = 1000 := by norm_num [pyRound]

lemma seconds_to_ts_zero : seconds_to_ts 0 = "00:00:00,000" := by
  rw [seconds_to_ts, pyRound_zero_mul]
  rfl

lemma seconds_to_ts_one : seconds_to_ts 1 = "00:00:01,000" := by
  rw [seconds_to_ts, pyRound_one_mul]
  rfl

/-- The caption refuting C7 as stated: its stored `index` is 7, but the
file block it produces is numbered 1 (its position). -/
def capSeven : Caption :=
  { index := 7, start := 0, end_ := 1, original_text := "a" }

/-- C7 counterexample: `write_srt` numbers blocks by 1-based position
(`enumerate(captions, start=1)`), not by the segment's stored `index`
field, so for a segment whose index is 7 the written file differs from
the claimed content. -/
theorem C7_counterexample :
    write_srt_content [capSeven] true ≠ claimedSrtContent [capSeven] := by
  rw [write_srt_content, claimedSrtContent]
  simp only [List.map, srtBlocksFrom, srtBlock, srtText, capSeven]
  rw [seconds_to_ts_zero, seconds_to_ts_one]
  decide

lemma srtBlocksFrom_getElem? (uk : Bool) (caps : List Caption) :
    ∀ (n k : ℕ), (srtBlocksFrom n uk caps)[k]? =
      (caps[k]?).map fun c => srtBlock (n + k) c uk := by
  induction caps with
  | nil => intro n k; simp [srtBlocksFrom]
  | cons c cs ih =>
    intro n k
    cases k with
    | zero => simp [srtBlocksFrom]
    | succ k' =>
      rw [srtBlocksFrom]
      simp only [List.getElem?_cons_succ]
      rw [ih (n + 1) k']
      have : n + 1 + k' = n + (k' + 1) := by omega
      rw [this]

lemma srtBlocksFrom_length (uk : Bool) (caps : List Caption) :
    ∀ n, (srtBlocksFrom n uk caps).length = caps.length := by
  induction caps with
  | nil => intro n; rfl
  | cons c cs ih => intro n; simp [srtBlocksFrom, ih]

/-- C7 amended: the written file is the concatenation of exactly one
block per segment, in list (timeline) order; the block for the segment
at 0-based position `k` consists of the line `k+1` (its 1-based
position — not the segment's stored `index` field), the
`HH:MM:SS,mmm --> HH:MM:SS,mmm` line built from the segment's start and
end, the dub text with fallback to the source text when the dub text is
empty, and a blank line. -/
theorem C7_sidecar_amended (caps : List Caption) :
    (srtBlocksFrom 1 true caps).length = caps.length ∧
    (∀ k : ℕ, (srtBlocksFrom 1 true caps)[k]? =
      (caps[k]?).map fun c =>
        toString (k + 1) ++ "\n" ++ seconds_to_ts c.start ++ " --> " ++
          seconds_to_ts c.end_ ++ "\n" ++
          (if c.khmer_text = "" then c.original_text else c.khmer_text) ++
          "\n\n") ∧
    write_srt_content caps true = String.join (srtBlocksFrom 1 true caps) := by
  refine ⟨srtBlocksFrom_length true caps 1, ?_, rfl⟩
  intro k
  rw [srtBlocksFrom_getElem? true caps 1 k]
  have : 1 + k = k + 1 := by omega
  rw [this]
  rfl

/-! ### Claim C3: the terminal finished signal -/

lemma translate_attempts_events (o : ℕ → ℕ → TransResult) (i : ℕ)
    (atts : List ℕ) :
    ∀ e ∈ (TranslateWorker.attemptsOn o i atts).1,
      (∃ a, e = Ev.callTranslate i a) ∨ e = Ev.sleep TranslateWorker.RETRY_DELAY := by
  induction atts with
  | nil => simp [TranslateWorker.attemptsOn]
  | cons b rest ih =>
    intro e hmem
    rw [TranslateWorker.attemptsOn] at hmem
    rcases hr : o i b with s | m
    · rw [hr] at hmem
      by_cases hs : s = ""
      · simp only [if_pos hs] at hmem
        rcases List.mem_cons.mp hmem with h' | h'
        · exact Or.inl ⟨b, h'⟩
        · exact ih e h'
      · simp only [if_neg hs] at hmem
        rcases List.mem_cons.mp hmem with h' | h'
        · exact Or.inl ⟨b, h'⟩
        · simp at h'
    · rw [hr] at hmem
      rcases List.mem_cons.mp hmem with h' | h'
      · exact Or.inl ⟨b, h'⟩
      · rcases List.mem_append.mp h' with h'' | h''
        · by_cases hb : b < TranslateWorker.MAX_RETRIES
          · simp only [if_pos hb] at h''
            rcases List.mem_singleton.mp h'' with h3
            exact Or.inr h3
          · simp [if_neg hb] at h''
        · exact ih e h''

lemma translate_runAux_no_finished (o : ℕ → ℕ → TransResult) (c : ℕ → Bool)
    (total : ℕ) :
    ∀ (i : ℕ) (l : List Caption),
      Ev.finished ∉ TranslateWorker.runAux o c total i l := by
  intro i l
  induction l generalizing i with
  | nil => simp [TranslateWorker.runAux]
  | cons cap rest ih =>
    intro hmem
    rw [TranslateWorker.runAux] at hmem
    by_cases hci : c i
    · simp [if_pos hci] at hmem
    · simp only [if_neg hci] at hmem
      rcases List.mem_append.mp hmem with h' | h'
      · rcases List.mem_append.mp h' with h'' | h''
        · rcases List.mem_append.mp h'' with h3 | h3
          · rcases translate_attempts_events o i _ _ h3 with ⟨a, ha⟩ | ha
            · exact Ev.noConfusion ha
            · exact Ev.noConfusion ha
          · rcases hx : (TranslateWorker.attemptsOn o i
                ((List.range TranslateWorker.MAX_RETRIES).map fun k => k + 1)).2 with _ | s
            · rw [hx] at h3; simp at h3
            · rw [hx] at h3; simp at h3
        · simp at h''
      · exact ih (i + 1) h'

lemma tts_attempts_events (o : ℕ → ℕ → Bool) (i : ℕ) (atts : List ℕ) :
    ∀ e ∈ (TTSWorker.attemptsOn o i atts).1,
      (∃ a, e = Ev.callTts i a) ∨ (∃ a, e = Ev.sleep ((2 : ℚ) ^ a)) := by
  induction atts with
  | nil => simp [TTSWorker.attemptsOn]
  | cons b rest ih =>
    intro e hmem
    rw [TTSWorker.attemptsOn] at hmem
    by_cases hb : o i b
    · simp only [if_pos hb] at hmem
      exact Or.inl ⟨b, List.mem_singleton.mp hmem⟩
    · simp only [if_neg hb] at hmem
      by_cases hl : b = TTSWorker.max_retries - 1
      · simp only [if_pos hl] at hmem
        exact Or.inl ⟨b, List.mem_singleton.mp hmem⟩
      · simp only [if_neg hl] at hmem
        rcases List.mem_cons.mp hmem with h' | h'
        · exact Or.inl ⟨b, h'⟩
        · rcases List.mem_cons.mp h' with h'' | h''
          · exact Or.inr ⟨b, h''⟩
          · exact ih e h''

lemma tts_runAux_no_finished (o : ℕ → ℕ → Bool) (total : ℕ) :
    ∀ (i : ℕ) (l : List Caption),
      Ev.finished ∉ (TTSWorker.runAux o total i l).1 := by
  intro i l
  induction l generalizing i with
  | nil => simp [TTSWorker.runAux]
  | cons cap rest ih =>
    intro hmem
    rw [TTSWorker.runAux] at hmem
    by_cases hk : cap.khmer_text = ""
    · simp only [if_pos hk] at hmem
      rcases List.mem_cons.mp hmem with h' | h'
      · exact Ev.noConfusion h'
      · exact ih (i + 1) h'
    · simp only [if_neg hk] at hmem
      by_cases ha : (TTSWorker.attemptsOn o i (List.range TTSWorker.max_retries)).2
      · simp only [if_pos ha] at hmem
        rcases List.mem_append.mp hmem with h' | h'
        · rcases List.mem_append.mp h' with h'' | h''
          · rcases List.mem_append.mp h'' with h3 | h3
            · rcases tts_attempts_events o i _ _ h3 with ⟨a, h4⟩ | ⟨a, h4⟩
              · exact Ev.noConfusion h4
              · exact Ev.noConfusion h4
            · rcases List.mem_cons.mp h3 with h4 | h4
              · exact Ev.noConfusion h4
              · exact Ev.noConfusion (List.mem_singleton.mp h4)
          · by_cases hr : rest.isEmpty
            · simp [if_pos hr] at h''
            · simp [if_neg hr] at h''
        · exact ih (i + 1) h'
      · simp only [if_neg ha] at hmem
        rcases tts_attempts_events o i _ _ hmem with ⟨a, h4⟩ | ⟨a, h4⟩
        · exact Ev.noConfusion h4
        · exact Ev.noConfusion h4

lemma encodeProgressList_events (base : ℤ) (d : ℚ) (ts : List ℚ) :
    ∀ e ∈ encodeProgressList base d ts, ∃ p, e = Ev.progress p := by
  intro e hmem
  rcases List.mem_filterMap.mp hmem with ⟨t, _, hsome⟩
  by_cases hd : d = 0
  · simp [if_pos hd] at hsome
  · simp only [if_neg hd] at hsome
    exact ⟨_, (Option.some_inj.mp hsome).symm⟩

lemma exportVideo_no_finished (env : ExportEnv) :
    Ev.finished ∉ (exportVideo env).events := by
  intro hmem
  rw [exportVideo] at hmem
  simp only at hmem
  rcases List.mem_append.mp hmem with h' | h'
  · rcases List.mem_append.mp h' with h'' | h''
    · by_cases ht : hasTtsB env
      · simp [if_pos ht] at h''
      · simp [if_neg ht] at h''
    · rcases List.mem_cons.mp h'' with h3 | h3
      · exact Ev.noConfusion h3
      · rcases encodeProgressList_events _ _ _ _ h3 with ⟨p, hp⟩
        exact Ev.noConfusion hp
  · by_cases he : env.encodeOk
    · simp [if_pos he] at h'
    · simp [if_neg he] at h'

lemma mapCb_ne_finished (e : Ev) (h : e ≠ Ev.finished) :
    ExportWorker.mapCb e ≠ Ev.finished := by
  cases e <;> simp [ExportWorker.mapCb] at *

/-- C3: every stage job emits the terminal `finished` signal exactly
once, and it is the last event of the run — after any success payload
or error message — for every oracle, cancellation schedule and input. -/
theorem C3_done_signal :
    (∀ o c caps, (TranslateWorker.run o c caps).count Ev.finished = 1 ∧
      (TranslateWorker.run o c caps).getLast? = some Ev.finished) ∧
    (∀ o caps, (TTSWorker.run o caps).count Ev.finished = 1 ∧
      (TTSWorker.run o caps).getLast? = some Ev.finished) ∧
    (∀ lr tr, (TranscribeWorker.run lr tr).count Ev.finished = 1 ∧
      (TranscribeWorker.run lr tr).getLast? = some Ev.finished) ∧
    (∀ env c path, (ExportWorker.run env c path).count Ev.finished = 1 ∧
      (ExportWorker.run env c path).getLast? = some Ev.finished) := by
  refine ⟨?_, ?_, ?_, ?_⟩
  · intro o c caps
    rw [TranslateWorker.run]
    constructor
    · rw [List.count_append]
      rw [List.count_eq_zero.mpr (translate_runAux_no_finished o c _ 0 caps)]
      rfl
    · exact List.getLast?_concat _
  · intro o caps
    rw [TTSWorker.run]
    constructor
    · rw [List.count_append, List.count_append,
        List.count_eq_zero.mpr (tts_runAux_no_finished o _ 0 caps)]
      rcases hx : (TTSWorker.runAux o
          (if caps.length = 0 then 1 else caps.length) 0 caps).2 with _ | m
      · rfl
      · rfl
    · exact List.getLast?_concat _
  · intro lr tr
    rcases lr with m | u
    · exact ⟨rfl, rfl⟩
    · rcases tr with m | segs
      · exact ⟨rfl, rfl⟩
      · rw [TranscribeWorker.run]
        have h1 : (((List.range segs.length).map fun k =>
            Ev.progress (20 + (((k + 1) * 75 /
              (if segs.length = 0 then 1 else segs.length) : ℕ) : ℤ))).count
              Ev.finished) = 0 := by
          rw [List.count_eq_zero]
          intro hmem
          rcases List.mem_map.mp hmem with ⟨k, _, hk⟩
          exact Ev.noConfusion hk
        have hsplit : (Ev.progress 5 :: Ev.progress 20 :: Ev.callTranscribe ::
            (((List.range segs.length).map fun k =>
              Ev.progress (20 + (((k + 1) * 75 /
                (if segs.length = 0 then 1 else segs.length) : ℕ) : ℤ))) ++
              [Ev.progress 100, Ev.captionsReady segs.length, Ev.finished])) =
            (Ev.progress 5 :: Ev.progress 20 :: Ev.callTranscribe ::
            (((List.range segs.length).map fun k =>
              Ev.progress (20 + (((k + 1) * 75 /
                (if segs.length = 0 then 1 else segs.length) : ℕ) : ℤ))) ++
              [Ev.progress 100, Ev.captionsReady segs.length])) ++ [Ev.finished] := by
          simp
        constructor
        · rw [List.count_cons, List.count_cons, List.count_cons,
            List.count_append, h1]
          rfl
        · rw [hsplit]
          exact List.getLast?_concat _
  · intro env c path
    rw [ExportWorker.run]
    by_cases h0 : c 0
    · simp [if_pos h0]
    · simp only [if_neg h0]
      by_cases h1 : c 1
      · simp [if_pos h1]
      · simp only [if_neg h1]
        have hm : ((exportVideo env).events.map ExportWorker.mapCb ++
            (match (exportVideo env).err with
             | none => [Ev.done path]
             | some m => [Ev.errorMsg m])).count Ev.finished = 0 := by
          rw [List.count_eq_zero]
          intro hmem
          rcases List.mem_append.mp hmem with h' | h'
          · rcases List.mem_map.mp h' with ⟨e, he, hce⟩
            have hne : e ≠ Ev.finished := fun hh => by
              rw [hh] at he; exact exportVideo_no_finished env he
            exact mapCb_ne_finished e hne hce
          · rcases hx : (exportVideo env).err with _ | m
            · rw [hx] at h'; simp at h'
            · rw [hx] at h'; simp at h'
        constructor
        · rw [List.count_cons, List.count_append, hm]
          rfl
        · have hsplit : (Ev.progress 5 ::
              (((exportVideo env).events.map ExportWorker.mapCb ++
                (match (exportVideo env).err with
                 | none => [Ev.done path]
                 | some m => [Ev.errorMsg m])) ++ [Ev.finished])) =
              (Ev.progress 5 ::
              ((exportVideo env).events.map ExportWorker.mapCb ++
                (match (exportVideo env).err with
                 | none => [Ev.done path]
                 | some m => [Ev.errorMsg m]))) ++ [Ev.finished] := by
            simp
          rw [hsplit]
          exact List.getLast?_concat _

/-! ### Claim C4: progress monotonicity -/

lemma progressVals_append (l1 l2 : List Ev) :
    progressVals (l1 ++ l2) = progressVals l1 ++ progressVals l2 :=
  List.filterMap_append l1 l2 _

lemma div100_le (i total : ℕ) (ht : 0 < total) (hi : i ≤ total) :
    i * 100 / total ≤ 100 := by
  calc i * 100 / total ≤ total * 100 / total :=
        Nat.div_le_div_right (Nat.mul_le_mul_right _ hi)
    _ = 100 := Nat.mul_div_cancel_left 100 ht

lemma div100_mono (i j total : ℕ) (hij : i ≤ j) :
    i * 100 / total ≤ j * 100 / total :=
  Nat.div_le_div_right (Nat.mul_le_mul_right _ hij)

lemma translate_attempts_no_progress (o : ℕ → ℕ → TransResult) (i : ℕ)
    (atts : List ℕ) :
    progressVals (TranslateWorker.attemptsOn o i atts).1 = [] := by
  rw [progressVals, List.filterMap_eq_nil_iff]
  intro e he
  rcases translate_attempts_events o i atts e he with ⟨a, rfl⟩ | rfl <;> rfl

lemma translate_runAux_vals (o : ℕ → ℕ → TransResult) (c : ℕ → Bool)
    (total : ℕ) :
    ∀ (i : ℕ) (cap : Caption) (rest : List Caption), c i = false →
      progressVals (TranslateWorker.runAux o c total i (cap :: rest)) =
        (((i + 1) * 100 / total : ℕ) : ℤ) ::
          progressVals (TranslateWorker.runAux o c total (i + 1) rest) := by
  intro i cap rest hci
  rw [TranslateWorker.runAux, if_neg (by simp [hci])]
  rw [progressVals_append, progressVals_append, progressVals_append]
  rw [translate_attempts_no_progress]
  rcases hx : (TranslateWorker.attemptsOn o i
      ((List.range TranslateWorker.MAX_RETRIES).map fun k => k + 1)).2 with _ | s
  · rfl
  · rfl

lemma translate_runAux_sorted (o : ℕ → ℕ → TransResult) (c : ℕ → Bool)
    (total : ℕ) (ht : 0 < total) :
    ∀ (l : List Caption) (i : ℕ), i + l.length ≤ total →
      (progressVals (TranslateWorker.runAux o c total i l)).Sorted (· ≤ ·) ∧
      (∀ p ∈ progressVals (TranslateWorker.runAux o c total i l),
        ((i * 100 / total : ℕ) : ℤ) ≤ p ∧ p ≤ 100) := by
  intro l
  induction l with
  | nil =>
    intro i hi
    rw [TranslateWorker.runAux]
    constructor
    · simp [progressVals]
    · intro p hp
      simp only [progressVals, List.filterMap] at hp
      rcases List.mem_singleton.mp hp with rfl
      constructor
      · exact_mod_cast Int.ofNat_le.mpr (div100_le i total ht (by omega))
      · norm_num
  | cons cap rest ih =>
    intro i hi
    by_cases hci : c i
    · rw [TranslateWorker.runAux, if_pos (by simp [hci])]
      simp [progressVals]
    · rw [translate_runAux_vals o c total i cap rest (by simp [hci])]
      have hrec := ih (i + 1) (by simp at hi ⊢; omega)
      constructor
      · rw [List.sorted_cons]
        refine ⟨?_, hrec.1⟩
        intro b hb
        exact (hrec.2 b hb).1
      · intro p hp
        rcases List.mem_cons.mp hp with rfl | hp'
        · constructor
          · exact_mod_cast Int.ofNat_le.mpr (div100_mono i (i + 1) total (by omega))
          · exact_mod_cast Int.ofNat_le.mpr (div100_le (i + 1) total ht (by simp at hi; omega))
        · have h1 := (hrec.2 p hp').1
          have h2 := (hrec.2 p hp').2
          refine ⟨le_trans ?_ h1, h2⟩
          exact_mod_cast Int.ofNat_le.mpr (div100_mono i (i + 1) total (by omega))

lemma translate_runAux_last (o : ℕ → ℕ → TransResult) (total : ℕ) :
    ∀ (l : List Caption) (i : ℕ),
      (progressVals (TranslateWorker.runAux o (fun _ => false) total i l)).getLast? =
        some 100 := by
  intro l
  induction l with
  | nil => intro i; rfl
  | cons cap rest ih =>
    intro i
    rw [translate_runAux_vals o (fun _ => false) total i cap rest rfl]
    have hne : progressVals (TranslateWorker.runAux o (fun _ => false) total
        (i + 1) rest) ≠ [] := by
      intro hnil
      have := ih (i + 1)
      rw [hnil] at this
      simp at this
    rw [show (((i + 1) * 100 / total : ℕ) : ℤ) ::
        progressVals (TranslateWorker.runAux o (fun _ => false) total (i + 1) rest) =
        [(((i + 1) * 100 / total : ℕ) : ℤ)] ++
        progressVals (TranslateWorker.runAux o (fun _ => false) total (i + 1) rest)
      from rfl]
    rw [List.getLast?_append_of_ne_nil _ hne]
    exact ih (i + 1)

lemma tts_attempts_no_progress (o : ℕ → ℕ → Bool) (i : ℕ) (atts : List ℕ) :
    progressVals (TTSWorker.attemptsOn o i atts).1 = [] := by
  rw [progressVals, List.filterMap_eq_nil_iff]
  intro e he
  rcases tts_attempts_events o i atts e he with ⟨a, rfl⟩ | ⟨a, rfl⟩ <;> rfl

lemma tts_runAux_empty_case (o : ℕ → ℕ → Bool) (total i : ℕ) (cap : Caption)
    (rest : List Caption) (hk : cap.khmer_text = "") :
    TTSWorker.runAux o total i (cap :: rest) =
      (Ev.progress (((i + 1) * 100 / total : ℕ) : ℤ) ::
        (TTSWorker.runAux o total (i + 1) rest).1,
       (TTSWorker.runAux o total (i + 1) rest).2) := by
  rw [TTSWorker.runAux, if_pos hk]

lemma tts_runAux_ok_case (o : ℕ → ℕ → Bool) (total i : ℕ) (cap : Caption)
    (rest : List Caption) (hk : ¬ cap.khmer_text = "")
    (ha : (TTSWorker.attemptsOn o i (List.range TTSWorker.max_retries)).2 = true) :
    TTSWorker.runAux o total i (cap :: rest) =
      ((TTSWorker.attemptsOn o i (List.range TTSWorker.max_retries)).1 ++
        [Ev.captionAudioReady cap.index,
         Ev.progress (((i + 1) * 100 / total : ℕ) : ℤ)] ++
        (if rest.isEmpty then [] else [Ev.sleep (1/2)]) ++
        (TTSWorker.runAux o total (i + 1) rest).1,
       (TTSWorker.runAux o total (i + 1) rest).2) := by
  rw [TTSWorker.runAux]
  simp only [if_neg hk, ha, if_pos]

lemma tts_runAux_fail_case (o : ℕ → ℕ → Bool) (total i : ℕ) (cap : Caption)
    (rest : List Caption) (hk : ¬ cap.khmer_text = "")
    (ha : (TTSWorker.attemptsOn o i (List.range TTSWorker.max_retries)).2 = false) :
    TTSWorker.runAux o total i (cap :: rest) =
      ((TTSWorker.attemptsOn o i (List.range TTSWorker.max_retries)).1,
       some TTSWorker.failMsg) := by
  rw [TTSWorker.runAux]
  simp only [if_neg hk, ha]
  rfl

lemma tts_runAux_progressVals (o : ℕ → ℕ → Bool) (total i : ℕ) (cap : Caption)
    (rest : List Caption)
    (h : cap.khmer_text = "" ∨
      (TTSWorker.attemptsOn o i (List.range TTSWorker.max_retries)).2 = true) :
    progressVals (TTSWorker.runAux o total i (cap :: rest)).1 =
      (((i + 1) * 100 / total : ℕ) : ℤ) ::
        progressVals (TTSWorker.runAux o total (i + 1) rest).1 := by
  rcases h with hk | ha
  · rw [tts_runAux_empty_case o total i cap rest hk]
    rfl
  · by_cases hk : cap.khmer_text = ""
    · rw [tts_runAux_empty_case o total i cap rest hk]
      rfl
    · rw [tts_runAux_ok_case o total i cap rest hk ha]
      show progressVals
        ((TTSWorker.attemptsOn o i (List.range TTSWorker.max_retries)).1 ++
          [Ev.captionAudioReady cap.index,
           Ev.progress (((i + 1) * 100 / total : ℕ) : ℤ)] ++
          (if rest.isEmpty then [] else [Ev.sleep (1/2)]) ++
          (TTSWorker.runAux o total (i + 1) rest).1) = _
      rw [progressVals_append, progressVals_append, progressVals_append,
        tts_attempts_no_progress]
      by_cases hr : rest.isEmpty
      · rw [if_pos hr]; rfl
      · rw [if_neg hr]; rfl

lemma tts_runAux_sorted (o : ℕ → ℕ → Bool) (total : ℕ) (ht : 0 < total) :
    ∀ (l : List Caption) (i : ℕ), i + l.length ≤ total →
      (progressVals (TTSWorker.runAux o total i l).1).Sorted (· ≤ ·) ∧
      (∀ p ∈ progressVals (TTSWorker.runAux o total i l).1,
        ((i * 100 / total : ℕ) : ℤ) ≤ p ∧ p ≤ 100) := by
  intro l
  induction l with
  | nil =>
    intro i hi
    rw [TTSWorker.runAux]
    constructor
    · simp [progressVals]
    · intro p hp
      rcases List.mem_singleton.mp hp with rfl
      constructor
      · exact_mod_cast Int.ofNat_le.mpr (div100_le i total ht (by omega))
      · norm_num
  | cons cap rest ih =>
    intro i hi
    by_cases hcase : cap.khmer_text = "" ∨
        (TTSWorker.attemptsOn o i (List.range TTSWorker.max_retries)).2 = true
    · rw [tts_runAux_progressVals o total i cap rest hcase]
      have hrec := ih (i + 1) (by simp at hi ⊢; omega)
      constructor
      · rw [List.sorted_cons]
        exact ⟨fun b hb => (hrec.2 b hb).1, hrec.1⟩
      · intro p hp
        rcases List.mem_cons.mp hp with rfl | hp'
        · constructor
          · exact_mod_cast Int.ofNat_le.mpr (div100_mono i (i + 1) total (by omega))
          · exact_mod_cast Int.ofNat_le.mpr (div100_le (i + 1) total ht (by simp at hi; omega))
        · have hmono : ((i * 100 / total : ℕ) : ℤ) ≤ (((i + 1) * 100 / total : ℕ) : ℤ) := by
            exact_mod_cast Int.ofNat_le.mpr (div100_mono i (i + 1) total (by omega))
          exact ⟨le_trans hmono (hrec.2 p hp').1, (hrec.2 p hp').2⟩
    · push_neg at hcase
      have ha : (TTSWorker.attemptsOn o i (List.range TTSWorker.max_retries)).2 = false := by
        rcases hb : (TTSWorker.attemptsOn o i (List.range TTSWorker.max_retries)).2
        · rfl
        · exact absurd hb hcase.2
      rw [tts_runAux_fail_case o total i cap rest hcase.1 ha]
      have h0 : progressVals
          ((TTSWorker.attemptsOn o i (List.range TTSWorker.max_retries)).1,
            (some TTSWorker.failMsg : Option String)).1 = [] :=
        tts_attempts_no_progress o i _
      rw [h0]
      exact ⟨List.sorted_nil, by simp⟩

lemma tts_runAux_last (o : ℕ → ℕ → Bool) (total : ℕ) :
    ∀ (l : List Caption) (i : ℕ), (TTSWorker.runAux o total i l).2 = none →
      (progressVals (TTSWorker.runAux o total i l).1).getLast? = some 100 := by
  intro l
  induction l with
  | nil => intro i _; rfl
  | cons cap rest ih =>
    intro i herr
    by_cases hcase : cap.khmer_text = "" ∨
        (TTSWorker.attemptsOn o i (List.range TTSWorker.max_retries)).2 = true
    · have herr' : (TTSWorker.runAux o total (i + 1) rest).2 = none := by
        rcases hcase with hk | ha
        · rw [tts_runAux_empty_case o total i cap rest hk] at herr
          exact herr
        · by_cases hk : cap.khmer_text = ""
          · rw [tts_runAux_empty_case o total i cap rest hk] at herr
            exact herr
          · rw [tts_runAux_ok_case o total i cap rest hk ha] at herr
            exact herr
      rw [tts_runAux_progressVals o total i cap rest hcase]
      have hne : progressVals (TTSWorker.runAux o total (i + 1) rest).1 ≠ [] := by
        intro hnil
        have := ih (i + 1) herr'
        rw [hnil] at this
        simp at this
      rw [show (((i + 1) * 100 / total : ℕ) : ℤ) ::
          progressVals (TTSWorker.runAux o total (i + 1) rest).1 =
          [(((i + 1) * 100 / total : ℕ) : ℤ)] ++
          progressVals (TTSWorker.runAux o total (i + 1) rest).1 from rfl]
      rw [List.getLast?_append_of_ne_nil _ hne]
      exact ih (i + 1) herr'
    · push_neg at hcase
      have ha : (TTSWorker.attemptsOn o i (List.range TTSWorker.max_retries)).2 = false := by
        rcases hb : (TTSWorker.attemptsOn o i (List.range TTSWorker.max_retries)).2
        · rfl
        · exact absurd hb hcase.2
      rw [tts_runAux_fail_case o total i cap rest hcase.1 ha] at herr
      exact absurd herr (by simp)

lemma divmul_le (i total m : ℕ) (ht : 0 < total) (hi : i ≤ total) :
    i * m / total ≤ m := by
  calc i * m / total ≤ total * m / total :=
        Nat.div_le_div_right (Nat.mul_le_mul_right _ hi)
    _ = m := Nat.mul_div_cancel_left m ht

lemma progressVals_map_progress (g : ℕ → ℤ) (l : List ℕ) :
    progressVals (l.map fun k => Ev.progress (g k)) = l.map g := by
  induction l with
  | nil => rfl
  | cons a t ih =>
    show g a :: progressVals (t.map fun k => Ev.progress (g k)) = _
    rw [ih]
    rfl

lemma transcribe_ok_vals (segs : List TSeg) :
    progressVals (TranscribeWorker.run (Except.ok ()) (Except.ok segs)) =
      5 :: 20 :: (((List.range segs.length).map fun k =>
        (20 + (((k + 1) * 75 /
          (if segs.length = 0 then 1 else segs.length) : ℕ) : ℤ))) ++ [100]) := by
  rw [TranscribeWorker.run]
  show progressVals (Ev.progress 5 :: Ev.progress 20 :: Ev.callTranscribe :: _) = _
  show 5 :: 20 :: progressVals
      ((((List.range segs.length).map fun k =>
        Ev.progress (20 + (((k + 1) * 75 /
          (if segs.length = 0 then 1 else segs.length) : ℕ) : ℤ)))) ++
        [Ev.progress 100, Ev.captionsReady segs.length, Ev.finished]) = _
  rw [progressVals_append, progressVals_map_progress]
  rfl

lemma transcribe_pct_bounds (segs : List TSeg) (k : ℕ) (hk : k < segs.length) :
    (20 : ℤ) ≤ 20 + (((k + 1) * 75 /
        (if segs.length = 0 then 1 else segs.length) : ℕ) : ℤ) ∧
      20 + (((k + 1) * 75 /
        (if segs.length = 0 then 1 else segs.length) : ℕ) : ℤ) ≤ 95 := by
  have hlen : (if segs.length = 0 then 1 else segs.length) = segs.length := by
    have : segs.length ≠ 0 := by omega
    simp [this]
  rw [hlen]
  constructor
  · have : (0 : ℤ) ≤ (((k + 1) * 75 / segs.length : ℕ) : ℤ) := Int.ofNat_nonneg _
    omega
  · have h75 : (k + 1) * 75 / segs.length ≤ 75 :=
      divmul_le (k + 1) segs.length 75 (by omega) (by omega)
    have : (((k + 1) * 75 / segs.length : ℕ) : ℤ) ≤ 75 := by exact_mod_cast h75
    omega

lemma encodeProgressList_vals (base : ℤ) (d : ℚ) (ts : List ℚ) :
    progressVals (encodeProgressList base d ts) =
      if d = 0 then [] else
        ts.map fun t => base + ⌊min (t / d) 1 * ((100 : ℚ) - (base : ℚ)) * (99/100)⌋ := by
  induction ts with
  | nil => by_cases hd : d = 0 <;> simp [encodeProgressList, progressVals, hd]
  | cons t ts ih =>
    by_cases hd : d = 0
    · rw [if_pos hd]
      rw [if_pos hd] at ih
      rw [encodeProgressList, List.filterMap_cons, if_pos hd]
      exact ih
    · rw [if_neg hd]
      rw [if_neg hd] at ih
      rw [encodeProgressList, List.filterMap_cons, if_neg hd]
      rw [List.map_cons]
      show _ :: progressVals (encodeProgressList base d ts) = _
      rw [ih]

lemma encode_pct_nonneg (base : ℤ) (d t : ℚ) (hb : 0 ≤ base) (hb2 : base ≤ 100)
    (hd : 0 < d) (htt : 0 ≤ t) :
    base ≤ base + ⌊min (t / d) 1 * ((100 : ℚ) - (base : ℚ)) * (99/100)⌋ := by
  have hx : (0 : ℚ) ≤ min (t / d) 1 * ((100 : ℚ) - (base : ℚ)) * (99/100) := by
    apply mul_nonneg
    apply mul_nonneg
    · exact le_min (div_nonneg htt (le_of_lt hd)) (by norm_num)
    · have : ((base : ℚ)) ≤ 100 := by exact_mod_cast hb2
      linarith
    · norm_num
  have := Int.floor_nonneg.mpr hx
  omega

lemma encode_pct_le (base : ℤ) (d t : ℚ) (hb : 0 ≤ base) (hb2 : base < 100)
    (hd : 0 < d) (htt : 0 ≤ t) :
    base + ⌊min (t / d) 1 * ((100 : ℚ) - (base : ℚ)) * (99/100)⌋ ≤ 99 := by
  have hspan : (0 : ℚ) < (100 : ℚ) - (base : ℚ) := by
    have : ((base : ℚ)) < 100 := by exact_mod_cast hb2
    linarith
  have hmin1 : min (t / d) 1 ≤ 1 := min_le_right _ _
  have hx : min (t / d) 1 * ((100 : ℚ) - (base : ℚ)) * (99/100) <
      (100 : ℚ) - (base : ℚ) := by
    have h1 : min (t / d) 1 * ((100 : ℚ) - (base : ℚ)) ≤ (100 : ℚ) - (base : ℚ) := by
      calc min (t / d) 1 * ((100 : ℚ) - (base : ℚ)) ≤
          1 * ((100 : ℚ) - (base : ℚ)) :=
            mul_le_mul_of_nonneg_right hmin1 (le_of_lt hspan)
        _ = (100 : ℚ) - (base : ℚ) := one_mul _
    calc min (t / d) 1 * ((100 : ℚ) - (base : ℚ)) * (99/100) ≤
        ((100 : ℚ) - (base : ℚ)) * (99/100) :=
          mul_le_mul_of_nonneg_right h1 (by norm_num)
      _ < (100 : ℚ) - (base : ℚ) := by linarith
  have hfl : ⌊min (t / d) 1 * ((100 : ℚ) - (base : ℚ)) * (99/100)⌋ < 100 - base := by
    have hcast : ((100 - base : ℤ) : ℚ) = (100 : ℚ) - (base : ℚ) := by push_cast; ring
    rw [Int.floor_lt, hcast]
    exact hx
  omega

lemma encode_pct_mono (base : ℤ) (d t t' : ℚ) (hb2 : base ≤ 100)
    (hd : 0 < d) (htt' : t ≤ t') :
    base + ⌊min (t / d) 1 * ((100 : ℚ) - (base : ℚ)) * (99/100)⌋ ≤
      base + ⌊min (t' / d) 1 * ((100 : ℚ) - (base : ℚ)) * (99/100)⌋ := by
  have hspan : (0 : ℚ) ≤ (100 : ℚ) - (base : ℚ) := by
    have : ((base : ℚ)) ≤ 100 := by exact_mod_cast hb2
    linarith
  have hmin : min (t / d) 1 ≤ min (t' / d) 1 := by gcongr
  have hx : min (t / d) 1 * ((100 : ℚ) - (base : ℚ)) * (99/100) ≤
      min (t' / d) 1 * ((100 : ℚ) - (base : ℚ)) * (99/100) := by
    apply mul_le_mul_of_nonneg_right _ (by norm_num)
    exact mul_le_mul_of_nonneg_right hmin hspan
  exact add_le_add_left (Int.floor_le_floor hx) base

lemma exportVideo_vals (env : ExportEnv) :
    progressVals (exportVideo env).events =
      (if hasTtsB env then [(10 : ℤ), 30] else []) ++
        progressVals (encodeProgressList (if hasTtsB env then 30 else 5)
          env.duration env.encodeTimes) ++
        (if env.encodeOk then [(100 : ℤ)] else []) := by
  rw [exportVideo]
  show progressVals
      ((if hasTtsB env then [Ev.progress 10, Ev.callFfmpegPremix, Ev.progress 30] else []) ++
        (Ev.callFfmpegEncode :: encodeProgressList (if hasTtsB env then 30 else 5)
          env.duration env.encodeTimes) ++
        (if env.encodeOk then [Ev.progress 100] else [])) = _
  rw [progressVals_append, progressVals_append]
  have h1 : progressVals
      (if hasTtsB env then [Ev.progress 10, Ev.callFfmpegPremix, Ev.progress 30] else []) =
      (if hasTtsB env then [(10 : ℤ), 30] else []) := by
    by_cases ht : hasTtsB env <;> simp [ht, progressVals]
  have h2 : progressVals (if env.encodeOk then [Ev.progress 100] else []) =
      (if env.encodeOk then [(100 : ℤ)] else []) := by
    by_cases he : env.encodeOk <;> simp [he, progressVals]
  have h3 : progressVals
      (Ev.callFfmpegEncode :: encodeProgressList (if hasTtsB env then 30 else 5)
        env.duration env.encodeTimes) =
      progressVals (encodeProgressList (if hasTtsB env then 30 else 5)
        env.duration env.encodeTimes) := rfl
  rw [h1, h2, h3]

lemma progressVals_mapCb (l : List Ev) :
    progressVals (l.map ExportWorker.mapCb) =
      (progressVals l).map ExportWorker.cb := by
  induction l with
  | nil => rfl
  | cons e t ih =>
    cases e <;> simp only [List.map_cons, ExportWorker.mapCb] <;>
      (try exact ih) <;>
      (show _ :: progressVals (t.map ExportWorker.mapCb) = _; rw [ih]; rfl)

lemma cb_mono {p q : ℤ} (h : p ≤ q) : ExportWorker.cb p ≤ ExportWorker.cb q := by
  unfold ExportWorker.cb
  have hc : ((p : ℚ)) * (95/100) ≤ (q : ℚ) * (95/100) := by
    apply mul_le_mul_of_nonneg_right _ (by norm_num)
    exact_mod_cast h
  exact add_le_add_left (Int.floor_le_floor hc) 5

lemma cb_bounds {p : ℤ} (h0 : 0 ≤ p) (h1 : p ≤ 100) :
    5 ≤ ExportWorker.cb p ∧ ExportWorker.cb p ≤ 100 := by
  unfold ExportWorker.cb
  constructor
  · have : (0 : ℚ) ≤ (p : ℚ) * (95/100) := by
      apply mul_nonneg _ (by norm_num)
      exact_mod_cast h0
    have := Int.floor_nonneg.mpr this
    omega
  · have hle : (p : ℚ) * (95/100) ≤ ((95 : ℤ) : ℚ) := by
      have hp : (p : ℚ) ≤ 100 := by exact_mod_cast h1
      push_cast
      linarith
    have := Int.floor_le_floor hle
    rw [Int.floor_intCast] at this
    omega

lemma cb_100 : ExportWorker.cb 100 = 100 := by
  unfold ExportWorker.cb
  have h : ((100 : ℤ) : ℚ) * (95/100) = ((95 : ℤ) : ℚ) := by push_cast; norm_num
  rw [h, Int.floor_intCast]
  rfl

lemma total_pos (caps : List Caption) :
    0 < (if caps.length = 0 then 1 else caps.length) := by
  by_cases h : caps.length = 0 <;> simp [h]
  omega

lemma len_le_total (caps : List Caption) :
    caps.length ≤ (if caps.length = 0 then 1 else caps.length) := by
  by_cases h : caps.length = 0 <;> simp [h]

lemma translate_run_sorted (o : ℕ → ℕ → TransResult) (c : ℕ → Bool)
    (caps : List Caption) :
    (progressVals (TranslateWorker.run o c caps)).Sorted (· ≤ ·) ∧
    (∀ p ∈ progressVals (TranslateWorker.run o c caps), 0 ≤ p ∧ p ≤ 100) := by
  rw [TranslateWorker.run, progressVals_append]
  have hfin : progressVals [Ev.finished] = [] := rfl
  rw [hfin, List.append_nil]
  have h := translate_runAux_sorted o c _ (total_pos caps) caps 0
    (by simpa using len_le_total caps)
  refine ⟨h.1, fun p hp => ?_⟩
  have := h.2 p hp
  constructor
  · calc (0 : ℤ) ≤ ((0 * 100 / (if caps.length = 0 then 1 else caps.length) : ℕ) : ℤ) :=
        Int.ofNat_nonneg _
      _ ≤ p := this.1
  · exact this.2

lemma translate_run_last (o : ℕ → ℕ → TransResult) (caps : List Caption) :
    (progressVals (TranslateWorker.run o (fun _ => false) caps)).getLast? =
      some 100 := by
  rw [TranslateWorker.run, progressVals_append]
  have hfin : progressVals [Ev.finished] = [] := rfl
  rw [hfin, List.append_nil]
  exact translate_runAux_last o _ caps 0

lemma tts_run_sorted (o : ℕ → ℕ → Bool) (caps : List Caption) :
    (progressVals (TTSWorker.run o caps)).Sorted (· ≤ ·) ∧
    (∀ p ∈ progressVals (TTSWorker.run o caps), 0 ≤ p ∧ p ≤ 100) := by
  rw [TTSWorker.run]
  have hvals : progressVals
      ((TTSWorker.runAux o (if caps.length = 0 then 1 else caps.length) 0 caps).1 ++
        (match (TTSWorker.runAux o (if caps.length = 0 then 1 else caps.length)
            0 caps).2 with
         | some m => [Ev.errorMsg m]
         | none => []) ++ [Ev.finished]) =
      progressVals (TTSWorker.runAux o
        (if caps.length = 0 then 1 else caps.length) 0 caps).1 := by
    rw [progressVals_append, progressVals_append]
    rcases hx : (TTSWorker.runAux o (if caps.length = 0 then 1 else caps.length)
        0 caps).2 with _ | m
    · simp [progressVals]
    · simp [progressVals]
  rw [hvals]
  have h := tts_runAux_sorted o _ (total_pos caps) caps 0
    (by simpa using len_le_total caps)
  refine ⟨h.1, fun p hp => ?_⟩
  have := h.2 p hp
  exact ⟨le_trans (Int.ofNat_nonneg _) this.1, this.2⟩

lemma tts_run_last (o : ℕ → ℕ → Bool) (caps : List Caption)
    (hne : ∀ m, Ev.errorMsg m ∉ TTSWorker.run o caps) :
    (progressVals (TTSWorker.run o caps)).getLast? = some 100 := by
  have herr : (TTSWorker.runAux o (if caps.length = 0 then 1 else caps.length)
      0 caps).2 = none := by
    rcases hx : (TTSWorker.runAux o (if caps.length = 0 then 1 else caps.length)
        0 caps).2 with _ | m
    · rfl
    · exfalso
      apply hne m
      rw [TTSWorker.run]
      apply List.mem_append.mpr
      left
      apply List.mem_append.mpr
      right
      rw [hx]
      exact List.mem_singleton.mpr rfl
  rw [TTSWorker.run]
  have hvals : progressVals
      ((TTSWorker.runAux o (if caps.length = 0 then 1 else caps.length) 0 caps).1 ++
        (match (TTSWorker.runAux o (if caps.length = 0 then 1 else caps.length)
            0 caps).2 with
         | some m => [Ev.errorMsg m]
         | none => []) ++ [Ev.finished]) =
      progressVals (TTSWorker.runAux o
        (if caps.length = 0 then 1 else caps.length) 0 caps).1 := by
    rw [progressVals_append, progressVals_append, herr]
    simp [progressVals]
  rw [hvals]
  exact tts_runAux_last o _ caps 0 herr

lemma transcribe_run_sorted (lr : Except String Unit)
    (tr : Except String (List TSeg)) :
    (progressVals (TranscribeWorker.run lr tr)).Sorted (· ≤ ·) ∧
    (∀ p ∈ progressVals (TranscribeWorker.run lr tr), 0 ≤ p ∧ p ≤ 100) := by
  rcases lr with m | u
  · constructor
    · show ([(5 : ℤ)]).Sorted (· ≤ ·)
      simp
    · intro p hp
      rcases List.mem_singleton.mp hp with rfl
      norm_num
  · rcases tr with m | segs
    · constructor
      · show ([(5 : ℤ), 20]).Sorted (· ≤ ·)
        simp
      · intro p hp
        rcases List.mem_cons.mp hp with rfl | hp'
        · norm_num
        · rcases List.mem_singleton.mp hp' with rfl
          norm_num
    · rcases u
      rw [transcribe_ok_vals segs]
      have hmap : ∀ p ∈ (List.range segs.length).map (fun k =>
          (20 + (((k + 1) * 75 /
            (if segs.length = 0 then 1 else segs.length) : ℕ) : ℤ))),
          20 ≤ p ∧ p ≤ 95 := by
        intro p hp
        rcases List.mem_map.mp hp with ⟨k, hk, rfl⟩
        exact transcribe_pct_bounds segs k (List.mem_range.mp hk)
      have hmapsorted : ((List.range segs.length).map (fun k =>
          (20 + (((k + 1) * 75 /
            (if segs.length = 0 then 1 else segs.length) : ℕ) : ℤ)))).Sorted (· ≤ ·) := by
        refine List.Pairwise.map _ ?_ (List.pairwise_lt_range segs.length)
        intro a b hab
        have := div100_mono (a + 1) (b + 1)
          (if segs.length = 0 then 1 else segs.length) (by omega)
        have h2 : (a + 1) * 75 / (if segs.length = 0 then 1 else segs.length) ≤
            (b + 1) * 75 / (if segs.length = 0 then 1 else segs.length) :=
          Nat.div_le_div_right (Nat.mul_le_mul_right _ (by omega))
        have h3 : (((a + 1) * 75 / (if segs.length = 0 then 1 else segs.length) : ℕ) : ℤ) ≤
            (((b + 1) * 75 / (if segs.length = 0 then 1 else segs.length) : ℕ) : ℤ) := by
          exact_mod_cast h2
        omega
      constructor
      · rw [List.sorted_cons]
        refine ⟨?_, ?_⟩
        · intro b hb
          rcases List.mem_cons.mp hb with rfl | hb'
          · norm_num
          · rcases List.mem_append.mp hb' with hb2 | hb2
            · have := (hmap b hb2).1
              omega
            · rcases List.mem_singleton.mp hb2 with rfl
              norm_num
        · rw [List.sorted_cons]
          refine ⟨?_, ?_⟩
          · intro b hb
            rcases List.mem_append.mp hb with hb2 | hb2
            · have := (hmap b hb2).1
              omega
            · rcases List.mem_singleton.mp hb2 with rfl
              norm_num
          · rw [List.Sorted, List.pairwise_append]
            refine ⟨hmapsorted, by simp, ?_⟩
            intro a ha b hb
            rcases List.mem_singleton.mp hb with rfl
            have := (hmap a ha).2
            omega
      · intro p hp
        rcases List.mem_cons.mp hp with rfl | hp'
        · norm_num
        rcases List.mem_cons.mp hp' with rfl | hp2
        · norm_num
        rcases List.mem_append.mp hp2 with hp3 | hp3
        · have := hmap p hp3
          omega
        · rcases List.mem_singleton.mp hp3 with rfl
          norm_num

lemma transcribe_run_last (segs : List TSeg) :
    (progressVals (TranscribeWorker.run (Except.ok ()) (Except.ok segs))).getLast? =
      some 100 := by
  rw [transcribe_ok_vals segs]
  show (((5 : ℤ) :: 20 :: (List.range segs.length).map fun k =>
      (20 + (((k + 1) * 75 /
        (if segs.length = 0 then 1 else segs.length) : ℕ) : ℤ))) ++
      [(100 : ℤ)]).getLast? = some 100
  exact List.getLast?_concat _

lemma exportVideo_base_facts (env : ExportEnv) :
    (5 : ℤ) ≤ (if hasTtsB env then (30 : ℤ) else 5) ∧
    (0 : ℤ) ≤ (if hasTtsB env then (30 : ℤ) else 5) ∧
    (if hasTtsB env then (30 : ℤ) else 5) < 100 := by
  by_cases ht : hasTtsB env <;> simp [ht]

lemma exportVideo_vals_sorted (env : ExportEnv)
    (hts : env.encodeTimes.Sorted (· ≤ ·))
    (htn : ∀ t ∈ env.encodeTimes, 0 ≤ t)
    (hdn : 0 ≤ env.duration) :
    (progressVals (exportVideo env).events).Sorted (· ≤ ·) ∧
    ∀ p ∈ progressVals (exportVideo env).events, 5 ≤ p ∧ p ≤ 100 := by
  obtain ⟨hb5, hb0, hb100⟩ := exportVideo_base_facts env
  rw [exportVideo_vals env, encodeProgressList_vals]
  set b : ℤ := (if hasTtsB env then (30 : ℤ) else 5) with hbdef
  set A : List ℤ := (if hasTtsB env then [(10 : ℤ), 30] else []) with hadef
  set B : List ℤ := (if env.duration = 0 then ([] : List ℤ) else
    env.encodeTimes.map fun t =>
      b + ⌊min (t / env.duration) 1 * ((100 : ℚ) - (b : ℚ)) * (99/100)⌋) with hbbdef
  set C : List ℤ := (if env.encodeOk then [(100 : ℤ)] else []) with hcdef
  have hBmem : ∀ p ∈ B, b ≤ p ∧ p ≤ 99 := by
    rw [hbbdef]
    by_cases hd : env.duration = 0
    · simp [hd]
    · rw [if_neg hd]
      intro p hp
      rcases List.mem_map.mp hp with ⟨t, htm, rfl⟩
      have hdp : 0 < env.duration := lt_of_le_of_ne hdn (Ne.symm hd)
      exact ⟨encode_pct_nonneg _ _ _ hb0 (le_of_lt hb100) hdp (htn t htm),
        encode_pct_le _ _ _ hb0 hb100 hdp (htn t htm)⟩
  have hBsorted : B.Sorted (· ≤ ·) := by
    rw [hbbdef]
    by_cases hd : env.duration = 0
    · simp [hd]
    · rw [if_neg hd]
      have hdp : 0 < env.duration := lt_of_le_of_ne hdn (Ne.symm hd)
      refine List.Pairwise.map _ ?_ hts
      intro x y hxy
      exact encode_pct_mono _ _ _ _ (by omega) hdp hxy
  have hAmem : ∀ a ∈ A, 5 ≤ a ∧ a ≤ b := by
    rw [hadef, hbdef]
    by_cases ht : hasTtsB env
    · simp only [if_pos ht]
      intro a ha
      rcases List.mem_cons.mp ha with rfl | ha2
      · norm_num
      · rcases List.mem_singleton.mp ha2 with rfl
        norm_num
    · simp [ht]
  have hAsorted : A.Sorted (· ≤ ·) := by
    rw [hadef]
    by_cases ht : hasTtsB env <;> simp [ht]
  have hCmem : ∀ p ∈ C, p = 100 := by
    rw [hcdef]
    by_cases he : env.encodeOk
    · rw [if_pos he]
      intro p hp
      exact List.mem_singleton.mp hp
    · simp [he]
  have hCsorted : C.Sorted (· ≤ ·) := by
    rw [hcdef]
    by_cases he : env.encodeOk <;> simp [he]
  constructor
  · rw [List.Sorted, List.pairwise_append]
    refine ⟨?_, hCsorted, ?_⟩
    · rw [List.pairwise_append]
      refine ⟨hAsorted, hBsorted, ?_⟩
      intro a ha p hp
      have h1 := (hAmem a ha).2
      have h2 := (hBmem p hp).1
      omega
    · intro a ha p hp
      have h2 := hCmem p hp
      subst h2
      rcases List.mem_append.mp ha with ha2 | ha2
      · have := (hAmem a ha2).2
        omega
      · have := (hBmem a ha2).2
        omega
  · intro p hp
    rcases List.mem_append.mp hp with hp2 | hp2
    · rcases List.mem_append.mp hp2 with hp3 | hp3
      · have := hAmem p hp3
        omega
      · have := hBmem p hp3
        omega
    · have := hCmem p hp2
      subst this
      norm_num

lemma export_run_vals (env : ExportEnv) (c : ℕ → Bool) (path : String)
    (h0 : c 0 = false) (h1 : c 1 = false) :
    progressVals (ExportWorker.run env c path) =
      5 :: (progressVals (exportVideo env).events).map ExportWorker.cb := by
  rw [ExportWorker.run, if_neg (by simp [h0]), if_neg (by simp [h1])]
  show 5 :: progressVals ((exportVideo env).events.map ExportWorker.mapCb ++
      (match (exportVideo env).err with
       | none => [Ev.done path]
       | some m => [Ev.errorMsg m]) ++ [Ev.finished]) = _
  rw [progressVals_append, progressVals_append, progressVals_mapCb]
  rcases hx : (exportVideo env).err with _ | m
  · simp [progressVals]
  · simp [progressVals]

lemma export_run_sorted (env : ExportEnv) (c : ℕ → Bool) (path : String)
    (hts : env.encodeTimes.Sorted (· ≤ ·))
    (htn : ∀ t ∈ env.encodeTimes, 0 ≤ t)
    (hdn : 0 ≤ env.duration) :
    (progressVals (ExportWorker.run env c path)).Sorted (· ≤ ·) ∧
    ∀ p ∈ progressVals (ExportWorker.run env c path), 0 ≤ p ∧ p ≤ 100 := by
  by_cases h0 : c 0
  · rw [ExportWorker.run, if_pos h0]
    exact ⟨by simp [progressVals], by simp [progressVals]⟩
  · by_cases h1 : c 1
    · rw [ExportWorker.run, if_neg (by simp [h0]), if_pos h1]
      constructor
      · show ([(5 : ℤ)]).Sorted (· ≤ ·)
        simp
      · intro p hp
        rcases List.mem_singleton.mp hp with rfl
        norm_num
    · rw [export_run_vals env c path (by simp [h0]) (by simp [h1])]
      obtain ⟨hsorted, hmem⟩ := exportVideo_vals_sorted env hts htn hdn
      constructor
      · rw [List.sorted_cons]
        constructor
        · intro q hq
          rcases List.mem_map.mp hq with ⟨p, hp, rfl⟩
          have hb := hmem p hp
          exact (cb_bounds (by omega) hb.2).1
        · exact List.Pairwise.map _ (fun a b hab => cb_mono hab) hsorted
      · intro q hq
        rcases List.mem_cons.mp hq with rfl | hq'
        · norm_num
        · rcases List.mem_map.mp hq' with ⟨p, hp, rfl⟩
          have hb := hmem p hp
          have := cb_bounds (p := p) (by omega) hb.2
          omega

lemma getLast?_cons_concat {α : Type} (a x : α) (l : List α) :
    (a :: (l ++ [x])).getLast? = some x := by
  rw [show a :: (l ++ [x]) = (a :: l) ++ [x] from rfl]
  exact List.getLast?_concat _

lemma export_run_last (env : ExportEnv) (c : ℕ → Bool) (path : String)
    (h0 : c 0 = false) (h1 : c 1 = false) (he : env.encodeOk = true) :
    (progressVals (ExportWorker.run env c path)).getLast? = some 100 := by
  rw [export_run_vals env c path h0 h1, exportVideo_vals env, if_pos he]
  have hmap100 : (([(100 : ℤ)]).map ExportWorker.cb) = [(100 : ℤ)] := by
    simp [cb_100]
  rw [List.map_append, hmap100]
  exact getLast?_cons_concat _ _ _

/-- C4: for each of the four jobs the emitted progress sequence is
non-decreasing with every value in 0–100, and on a successful run
(Translate: not cancelled; Synthesize: no error signal; Transcribe:
both external calls return; Export: not cancelled and encoder exit
code 0) the final emitted value is 100.  For Export the elapsed times
parsed from the encoder's diagnostic stream are assumed nonnegative and
non-decreasing, as ffmpeg emits them. -/
theorem C4_progress_monotonicity :
    (∀ o c caps,
      (progressVals (TranslateWorker.run o c caps)).Sorted (· ≤ ·) ∧
      (∀ p ∈ progressVals (TranslateWorker.run o c caps), 0 ≤ p ∧ p ≤ 100) ∧
      (progressVals (TranslateWorker.run o (fun _ => false) caps)).getLast? =
        some 100) ∧
    (∀ o caps,
      (progressVals (TTSWorker.run o caps)).Sorted (· ≤ ·) ∧
      (∀ p ∈ progressVals (TTSWorker.run o caps), 0 ≤ p ∧ p ≤ 100) ∧
      ((∀ m, Ev.errorMsg m ∉ TTSWorker.run o caps) →
        (progressVals (TTSWorker.run o caps)).getLast? = some 100)) ∧
    (∀ lr tr,
      (progressVals (TranscribeWorker.run lr tr)).Sorted (· ≤ ·) ∧
      (∀ p ∈ progressVals (TranscribeWorker.run lr tr), 0 ≤ p ∧ p ≤ 100) ∧
      ∀ segs, (progressVals (TranscribeWorker.run (Except.ok ())
        (Except.ok segs))).getLast? = some 100) ∧
    (∀ env c path,
      env.encodeTimes.Sorted (· ≤ ·) →
      (∀ t ∈ env.encodeTimes, 0 ≤ t) →
      0 ≤ env.duration →
      (progressVals (ExportWorker.run env c path)).Sorted (· ≤ ·) ∧
      (∀ p ∈ progressVals (ExportWorker.run env c path), 0 ≤ p ∧ p ≤ 100) ∧
      (c 0 = false → c 1 = false → env.encodeOk = true →
        (progressVals (ExportWorker.run env c path)).getLast? = some 100)) := by
  refine ⟨?_, ?_, ?_, ?_⟩
  · intro o c caps
    exact ⟨(translate_run_sorted o c caps).1, (translate_run_sorted o c caps).2,
      translate_run_last o caps⟩
  · intro o caps
    exact ⟨(tts_run_sorted o caps).1, (tts_run_sorted o caps).2,
      tts_run_last o caps⟩
  · intro lr tr
    exact ⟨(transcribe_run_sorted lr tr).1, (transcribe_run_sorted lr tr).2,
      transcribe_run_last⟩
  · intro env c path hts htn hdn
    exact ⟨(export_run_sorted env c path hts htn hdn).1,
      (export_run_sorted env c path hts htn hdn).2,
      fun h0 h1 he => export_run_last env c path h0 h1 he⟩

/-- A minimal concrete export environment for the C4 witness: no
captions, encoder succeeds immediately. -/
def envTiny : ExportEnv :=
  { captions := []
    fileExists := fun _ => false
    premixOk := true
    duration := 0
    encodeTimes := []
    encodeOk := true }

/-- Witness for C4: a concrete successful export run ends at 100. -/
theorem C4_progress_monotonicity_witness :
    (progressVals (ExportWorker.run envTiny (fun _ => false) "out.mp4")).getLast? =
      some 100 :=
  (C4_progress_monotonicity.2.2.2 envTiny (fun _ => false) "out.mp4"
    (show ([] : List ℚ).Sorted (· ≤ ·) from List.sorted_nil)
    (fun t ht => absurd ht (List.not_mem_nil t))
    (le_refl 0)).2.2 rfl rfl rfl

/-! ### Claim C2: retry asymmetry -/

lemma translate_runAux_no_error (o : ℕ → ℕ → TransResult) (c : ℕ → Bool)
    (total : ℕ) :
    ∀ (i : ℕ) (l : List Caption) (m : String),
      Ev.errorMsg m ∉ TranslateWorker.runAux o c total i l := by
  intro i l
  induction l generalizing i with
  | nil => simp [TranslateWorker.runAux]
  | cons cap rest ih =>
    intro m hmem
    rw [TranslateWorker.runAux] at hmem
    by_cases hci : c i
    · simp [if_pos hci] at hmem
    · simp only [if_neg hci] at hmem
      rcases List.mem_append.mp hmem with h' | h'
      · rcases List.mem_append.mp h' with h'' | h''
        · rcases List.mem_append.mp h'' with h3 | h3
          · rcases translate_attempts_events o i _ _ h3 with ⟨a, ha⟩ | ha
            · exact Ev.noConfusion ha
            · exact Ev.noConfusion ha
          · rcases hx : (TranslateWorker.attemptsOn o i
                ((List.range TranslateWorker.MAX_RETRIES).map fun k => k + 1)).2 with _ | s
            · rw [hx] at h3; simp at h3
            · rw [hx] at h3; simp at h3
        · simp at h''
      · exact ih (i + 1) m h'

lemma range_map_succ_eq : ((List.range TranslateWorker.MAX_RETRIES).map
    fun k => k + 1) = [1, 2, 3] := by
  rfl

lemma translate_attempts_first_ok (o : ℕ → ℕ → TransResult) (i : ℕ) (s : String)
    (h : o i 1 = TransResult.ok s) (hs : s ≠ "") :
    TranslateWorker.attemptsOn o i [1, 2, 3] = ([Ev.callTranslate i 1], some s) := by
  rw [TranslateWorker.attemptsOn, h]
  simp [hs]

lemma translate_attempts_all_fail (o : ℕ → ℕ → TransResult) (j : ℕ)
    (hfail : ∀ a, (o j a).isExn = true) :
    TranslateWorker.attemptsOn o j [1, 2, 3] =
      ([Ev.callTranslate j 1, Ev.sleep TranslateWorker.RETRY_DELAY,
        Ev.callTranslate j 2, Ev.sleep TranslateWorker.RETRY_DELAY,
        Ev.callTranslate j 3], none) := by
  have h1 : ∃ m, o j 1 = TransResult.exn m := by
    rcases hx : o j 1 with s | m
    · have := hfail 1
      rw [hx] at this
      exact absurd this (by simp [TransResult.isExn])
    · exact ⟨m, rfl⟩
  have h2 : ∃ m, o j 2 = TransResult.exn m := by
    rcases hx : o j 2 with s | m
    · have := hfail 2
      rw [hx] at this
      exact absurd this (by simp [TransResult.isExn])
    · exact ⟨m, rfl⟩
  have h3 : ∃ m, o j 3 = TransResult.exn m := by
    rcases hx : o j 3 with s | m
    · have := hfail 3
      rw [hx] at this
      exact absurd this (by simp [TransResult.isExn])
    · exact ⟨m, rfl⟩
  obtain ⟨m1, hm1⟩ := h1
  obtain ⟨m2, hm2⟩ := h2
  obtain ⟨m3, hm3⟩ := h3
  rw [TranslateWorker.attemptsOn, hm1]
  rw [TranslateWorker.attemptsOn, hm2]
  rw [TranslateWorker.attemptsOn, hm3]
  rw [TranslateWorker.attemptsOn]
  norm_num [TranslateWorker.MAX_RETRIES]

/-- The per-caption event blocks of a Translate run without
cancellation (the run is these blocks followed by `progress(100)` and
`finished`). -/
def transBlocks (o : ℕ → ℕ → TransResult) (total : ℕ) :
    ℕ → List Caption → List Ev
  | _, [] => []
  | i, cap :: rest =>
    (TranslateWorker.attemptsOn o i
        ((List.range TranslateWorker.MAX_RETRIES).map fun k => k + 1)).1 ++
      (match (TranslateWorker.attemptsOn o i
          ((List.range TranslateWorker.MAX_RETRIES).map fun k => k + 1)).2 with
       | some s => [Ev.captionTranslated cap.index s]
       | none => [Ev.captionSkipped cap.index]) ++
      [Ev.progress (((i + 1) * 100 / total : ℕ) : ℤ)] ++
      transBlocks o total (i + 1) rest

lemma translate_runAux_eq_blocks (o : ℕ → ℕ → TransResult) (total : ℕ) :
    ∀ (l : List Caption) (i : ℕ),
      TranslateWorker.runAux o (fun _ => false) total i l =
        transBlocks o total i l ++ [Ev.progress 100] := by
  intro l
  induction l with
  | nil => intro i; rfl
  | cons cap rest ih =>
    intro i
    rw [TranslateWorker.runAux, if_neg (by simp), transBlocks, ih (i + 1)]
    simp only [List.append_assoc]

lemma transBlocks_append (o : ℕ → ℕ → TransResult) (total : ℕ) :
    ∀ (l1 l2 : List Caption) (i : ℕ),
      transBlocks o total i (l1 ++ l2) =
        transBlocks o total i l1 ++ transBlocks o total (i + l1.length) l2 := by
  intro l1
  induction l1 with
  | nil => intro l2 i; simp [transBlocks]
  | cons cap rest ih =>
    intro l2 i
    rw [List.cons_append, transBlocks, transBlocks, ih l2 (i + 1)]
    simp only [List.append_assoc, List.length_cons]
    have : i + 1 + rest.length = i + (rest.length + 1) := by omega
    rw [this]

lemma transBlocks_all_ok (o : ℕ → ℕ → TransResult) (total : ℕ) :
    ∀ (l : List Caption) (i : ℕ),
      (∀ k, i ≤ k → k < i + l.length → ∃ s, o k 1 = TransResult.ok s ∧ s ≠ "") →
      (∀ x, Ev.captionSkipped x ∉ transBlocks o total i l) ∧
      (∀ q, Ev.sleep q ∉ transBlocks o total i l) ∧
      (∀ x s, Ev.captionTranslated x s ∈ transBlocks o total i l →
        x ∈ l.map Caption.index) ∧
      (∀ c' ∈ l, ∃ s, Ev.captionTranslated c'.index s ∈ transBlocks o total i l) := by
  intro l
  induction l with
  | nil =>
    intro i _
    refine ⟨by simp [transBlocks], by simp [transBlocks], by simp [transBlocks],
      by simp⟩
  | cons cap rest ih =>
    intro i hok
    obtain ⟨s, hs, hsne⟩ := hok i (le_refl i) (by simp)
    have hatt : TranslateWorker.attemptsOn o i
        ((List.range TranslateWorker.MAX_RETRIES).map fun k => k + 1) =
        ([Ev.callTranslate i 1], some s) := by
      rw [range_map_succ_eq]
      exact translate_attempts_first_ok o i s hs hsne
    have hblock : transBlocks o total i (cap :: rest) =
        [Ev.callTranslate i 1] ++ [Ev.captionTranslated cap.index s] ++
          [Ev.progress (((i + 1) * 100 / total : ℕ) : ℤ)] ++
          transBlocks o total (i + 1) rest := by
      rw [transBlocks, hatt]
    have hrec := ih (i + 1) (fun k hk1 hk2 => hok k (by omega) (by simp; omega))
    rw [hblock]
    refine ⟨?_, ?_, ?_, ?_⟩
    · intro x hmem
      rcases List.mem_append.mp hmem with h' | h'
      · rcases List.mem_append.mp h' with h'' | h''
        · rcases List.mem_append.mp h'' with h3 | h3
          · simp at h3
          · simp at h3
        · simp at h''
      · exact hrec.1 x h'
    · intro q hmem
      rcases List.mem_append.mp hmem with h' | h'
      · rcases List.mem_append.mp h' with h'' | h''
        · rcases List.mem_append.mp h'' with h3 | h3
          · simp at h3
          · simp at h3
        · simp at h''
      · exact hrec.2.1 q h'
    · intro x s' hmem
      rcases List.mem_append.mp hmem with h' | h'
      · rcases List.mem_append.mp h' with h'' | h''
        · rcases List.mem_append.mp h'' with h3 | h3
          · simp at h3
          · have hx := List.mem_singleton.mp h3
            injection hx with hx1 hx2
            subst hx1
            simp
        · simp at h''
      · have := hrec.2.2.1 x s' h'
        simp at this ⊢
        right
        exact this
    · intro c' hc'
      rcases List.mem_cons.mp hc' with rfl | hc2
      · exact ⟨s, by simp⟩
      · obtain ⟨s', hs'⟩ := hrec.2.2.2 c' hc2
        exact ⟨s', by simp [hs']⟩

lemma translate_exhaustion_spec
    (o : ℕ → ℕ → TransResult) (pre post : List Caption) (cap : Caption)
    (hfail : ∀ a, (o pre.length a).isExn = true)
    (hok : ∀ i, i ≠ pre.length → ∃ s, o i 1 = TransResult.ok s ∧ s ≠ "")
    (hidx : cap.index ∉ (pre ++ post).map Caption.index) :
    (TranslateWorker.run o (fun _ => false) (pre ++ cap :: post)).count
        (Ev.captionSkipped cap.index) = 1 ∧
    (∀ s, Ev.captionTranslated cap.index s ∉
        TranslateWorker.run o (fun _ => false) (pre ++ cap :: post)) ∧
    (∀ c' ∈ pre ++ post, ∃ s, Ev.captionTranslated c'.index s ∈
        TranslateWorker.run o (fun _ => false) (pre ++ cap :: post)) ∧
    (∀ m, Ev.errorMsg m ∉
        TranslateWorker.run o (fun _ => false) (pre ++ cap :: post)) ∧
    (TranslateWorker.run o (fun _ => false) (pre ++ cap :: post)).count
        (Ev.sleep TranslateWorker.RETRY_DELAY) = 2 ∧
    (∀ a ∈ [1, 2, 3], Ev.callTranslate pre.length a ∈
        TranslateWorker.run o (fun _ => false) (pre ++ cap :: post)) := by
  set total := if (pre ++ cap :: post).length = 0 then 1
    else (pre ++ cap :: post).length with htot
  have hBpre := transBlocks_all_ok o total pre 0
    (fun k h1 h2 => hok k (by simp at h2; omega))
  have hBpost := transBlocks_all_ok o total post (pre.length + 1)
    (fun k h1 h2 => hok k (by omega))
  have hatt := translate_attempts_all_fail o pre.length hfail
  have hseg : transBlocks o total pre.length (cap :: post) =
      ([Ev.callTranslate pre.length 1, Ev.sleep TranslateWorker.RETRY_DELAY,
        Ev.callTranslate pre.length 2, Ev.sleep TranslateWorker.RETRY_DELAY,
        Ev.callTranslate pre.length 3] ++
        [Ev.captionSkipped cap.index] ++
        [Ev.progress (((pre.length + 1) * 100 / total : ℕ) : ℤ)] ++
        transBlocks o total (pre.length + 1) post) := by
    rw [transBlocks, range_map_succ_eq, hatt]
  have hrun : TranslateWorker.run o (fun _ => false) (pre ++ cap :: post) =
      transBlocks o total 0 pre ++
        ([Ev.callTranslate pre.length 1, Ev.sleep TranslateWorker.RETRY_DELAY,
          Ev.callTranslate pre.length 2, Ev.sleep TranslateWorker.RETRY_DELAY,
          Ev.callTranslate pre.length 3] ++
          [Ev.captionSkipped cap.index] ++
          [Ev.progress (((pre.length + 1) * 100 / total : ℕ) : ℤ)] ++
          transBlocks o total (pre.length + 1) post) ++
        [Ev.progress 100] ++ [Ev.finished] := by
    have h0len : (0 : ℕ) + pre.length = pre.length := Nat.zero_add _
    rw [TranslateWorker.run]
    rw [translate_runAux_eq_blocks]
    rw [transBlocks_append]
    rw [← htot]
    rw [h0len]
    rw [hseg]
  refine ⟨?_, ?_, ?_, ?_, ?_, ?_⟩
  · rw [hrun]
    have h1 : (transBlocks o total 0 pre).count (Ev.captionSkipped cap.index) = 0 :=
      List.count_eq_zero.mpr (hBpre.1 cap.index)
    have h2 : (transBlocks o total (pre.length + 1) post).count
        (Ev.captionSkipped cap.index) = 0 :=
      List.count_eq_zero.mpr (hBpost.1 cap.index)
    simp [List.count_append, h1, h2, List.count_cons]
  · intro s hmem
    rw [hrun] at hmem
    simp only [List.mem_append] at hmem
    rcases hmem with ((h' | (((h3 | h3) | h3) | h3)) | h') | h'
    · apply hidx
      rw [List.map_append]
      exact List.mem_append.mpr (Or.inl (hBpre.2.2.1 cap.index s h'))
    · simp at h3
    · simp at h3
    · simp at h3
    · apply hidx
      rw [List.map_append]
      exact List.mem_append.mpr (Or.inr (hBpost.2.2.1 cap.index s h3))
    · simp at h'
    · simp at h'
  · intro c' hc'
    rcases List.mem_append.mp hc' with hc2 | hc2
    · obtain ⟨s, hs⟩ := hBpre.2.2.2 c' hc2
      refine ⟨s, ?_⟩
      rw [hrun]
      simp only [List.mem_append]
      exact Or.inl (Or.inl (Or.inl hs))
    · obtain ⟨s, hs⟩ := hBpost.2.2.2 c' hc2
      refine ⟨s, ?_⟩
      rw [hrun]
      simp only [List.mem_append]
      exact Or.inl (Or.inl (Or.inr (Or.inr hs)))
  · intro m
    rw [TranslateWorker.run]
    intro hmem
    rcases List.mem_append.mp hmem with h' | h'
    · exact translate_runAux_no_error o _ total 0 (pre ++ cap :: post) m h'
    · simp at h'
  · rw [hrun]
    have h1 : (transBlocks o total 0 pre).count
        (Ev.sleep TranslateWorker.RETRY_DELAY) = 0 :=
      List.count_eq_zero.mpr (hBpre.2.1 TranslateWorker.RETRY_DELAY)
    have h2 : (transBlocks o total (pre.length + 1) post).count
        (Ev.sleep TranslateWorker.RETRY_DELAY) = 0 :=
      List.count_eq_zero.mpr (hBpost.2.1 TranslateWorker.RETRY_DELAY)
    simp [List.count_append, h1, h2, List.count_cons]
  · intro a ha
    rw [hrun]
    simp only [List.mem_append]
    refine Or.inl (Or.inl (Or.inr ?_))
    rcases List.mem_cons.mp ha with rfl | ha'
    · refine Or.inl (Or.inl ?_)
      refine Or.inl ?_
      simp
    rcases List.mem_cons.mp ha' with rfl | ha2
    · refine Or.inl (Or.inl ?_)
      refine Or.inl ?_
      simp
    rcases List.mem_cons.mp ha2 with rfl | ha3
    · refine Or.inl (Or.inl ?_)
      refine Or.inl ?_
      simp
    · simp at ha3

lemma tts_attempts_first_ok (o : ℕ → ℕ → Bool) (i : ℕ) (h : o i 0 = true) :
    TTSWorker.attemptsOn o i (List.range TTSWorker.max_retries) =
      ([Ev.callTts i 0], true) := by
  have h5 : List.range TTSWorker.max_retries = [0, 1, 2, 3, 4] := rfl
  rw [h5, TTSWorker.attemptsOn, if_pos h]

lemma tts_attempts_all_fail (o : ℕ → ℕ → Bool) (j : ℕ)
    (hfail : ∀ a, o j a = false) :
    TTSWorker.attemptsOn o j (List.range TTSWorker.max_retries) =
      ([Ev.callTts j 0, Ev.sleep 1, Ev.callTts j 1, Ev.sleep 2,
        Ev.callTts j 2, Ev.sleep 4, Ev.callTts j 3, Ev.sleep 8,
        Ev.callTts j 4], false) := by
  have h5 : List.range TTSWorker.max_retries = [0, 1, 2, 3, 4] := rfl
  rw [h5]
  rw [TTSWorker.attemptsOn, hfail 0]
  rw [TTSWorker.attemptsOn, hfail 1]
  rw [TTSWorker.attemptsOn, hfail 2]
  rw [TTSWorker.attemptsOn, hfail 3]
  rw [TTSWorker.attemptsOn, hfail 4]
  norm_num [TTSWorker.max_retries]

lemma tts_runAux_ok_prefix (o : ℕ → ℕ → Bool) (total : ℕ) :
    ∀ (pre rest : List Caption) (i : ℕ),
      (∀ k, i ≤ k → k < i + pre.length → o k 0 = true) →
      ∃ B : List Ev,
        (TTSWorker.runAux o total i (pre ++ rest)).1 =
          B ++ (TTSWorker.runAux o total (i + pre.length) rest).1 ∧
        (TTSWorker.runAux o total i (pre ++ rest)).2 =
          (TTSWorker.runAux o total (i + pre.length) rest).2 ∧
        (∀ e ∈ B, (∃ p a, e = Ev.callTts p a ∧ p < i + pre.length) ∨
          (∃ x, e = Ev.captionAudioReady x ∧ x ∈ pre.map Caption.index) ∨
          (∃ q, e = Ev.progress q) ∨ (∃ q, e = Ev.sleep q)) := by
  intro pre
  induction pre with
  | nil =>
    intro rest i _
    refine ⟨[], ?_, ?_, by simp⟩
    · simp
    · simp
  | cons cap tail ih =>
    intro rest i hok
    obtain ⟨B', hB1, hB2, hB3⟩ := ih rest (i + 1)
      (fun k h1 h2 => hok k (by omega) (by simp; omega))
    by_cases hk : cap.khmer_text = ""
    · rw [List.cons_append]
      rw [tts_runAux_empty_case o total i cap (tail ++ rest) hk]
      refine ⟨Ev.progress (((i + 1) * 100 / total : ℕ) : ℤ) :: B', ?_, ?_, ?_⟩
      · show Ev.progress _ :: (TTSWorker.runAux o total (i + 1) (tail ++ rest)).1 = _
        rw [hB1]
        have : i + 1 + tail.length = i + (tail.length + 1) := by omega
        rw [this]
        rfl
      · show (TTSWorker.runAux o total (i + 1) (tail ++ rest)).2 = _
        rw [hB2]
        have : i + 1 + tail.length = i + (tail.length + 1) := by omega
        rw [this]
        rfl
      · intro e he
        rcases List.mem_cons.mp he with rfl | he'
        · exact Or.inr (Or.inr (Or.inl ⟨_, rfl⟩))
        · rcases hB3 e he' with ⟨p, a, hpa, hplt⟩ | ⟨x, hx, hxm⟩ | h3 | h3
          · exact Or.inl ⟨p, a, hpa, by simp; omega⟩
          · exact Or.inr (Or.inl ⟨x, hx, by simp [hxm]⟩)
          · exact Or.inr (Or.inr (Or.inl h3))
          · exact Or.inr (Or.inr (Or.inr h3))
    · have hatt := tts_attempts_first_ok o i (hok i (le_refl i) (by simp))
      rw [List.cons_append]
      rw [tts_runAux_ok_case o total i cap (tail ++ rest) hk (by rw [hatt])]
      rw [hatt]
      refine ⟨[Ev.callTts i 0] ++
        [Ev.captionAudioReady cap.index,
         Ev.progress (((i + 1) * 100 / total : ℕ) : ℤ)] ++
        (if (tail ++ rest).isEmpty then [] else [Ev.sleep (1/2)]) ++ B', ?_, ?_, ?_⟩
      · show ([Ev.callTts i 0] ++ _ ++ _ ++
            (TTSWorker.runAux o total (i + 1) (tail ++ rest)).1) = _
        rw [hB1]
        have : i + 1 + tail.length = i + (tail.length + 1) := by omega
        rw [this]
        simp only [List.append_assoc, List.length_cons]
      · show (TTSWorker.runAux o total (i + 1) (tail ++ rest)).2 = _
        rw [hB2]
        have : i + 1 + tail.length = i + (tail.length + 1) := by omega
        rw [this]
        rfl
      · intro e he
        simp only [List.mem_append] at he
        rcases he with ((he | he) | he) | he
        · rcases List.mem_singleton.mp he with rfl
          exact Or.inl ⟨i, 0, rfl, by simp⟩
        · rcases List.mem_cons.mp he with rfl | he'
          · exact Or.inr (Or.inl ⟨cap.index, rfl, by simp⟩)
          · rcases List.mem_singleton.mp he' with rfl
            exact Or.inr (Or.inr (Or.inl ⟨_, rfl⟩))
        · by_cases hre : (tail ++ rest).isEmpty
          · rw [if_pos hre] at he
            simp at he
          · rw [if_neg hre] at he
            rcases List.mem_singleton.mp he with rfl
            exact Or.inr (Or.inr (Or.inr ⟨_, rfl⟩))
        · rcases hB3 e he with ⟨p, a, hpa, hplt⟩ | ⟨x, hx, hxm⟩ | h3 | h3
          · exact Or.inl ⟨p, a, hpa, by simp; omega⟩
          · exact Or.inr (Or.inl ⟨x, hx, by simp [hxm]⟩)
          · exact Or.inr (Or.inr (Or.inl h3))
          · exact Or.inr (Or.inr (Or.inr h3))

lemma tts_exhaustion_spec (o : ℕ → ℕ → Bool) (pre post : List Caption)
    (cap : Caption)
    (hfail : ∀ a, o pre.length a = false)
    (hok : ∀ i, i ≠ pre.length → o i 0 = true)
    (hk : cap.khmer_text ≠ "") :
    (∃ evs, TTSWorker.run o (pre ++ cap :: post) =
        evs ++ [Ev.errorMsg TTSWorker.failMsg, Ev.finished] ∧
      (∀ p a, pre.length < p → Ev.callTts p a ∉ evs)) ∧
    Ev.errorMsg TTSWorker.failMsg ∈ TTSWorker.run o (pre ++ cap :: post) ∧
    (∀ p a, pre.length < p →
      Ev.callTts p a ∉ TTSWorker.run o (pre ++ cap :: post)) ∧
    (∀ c' ∈ post, c'.index ∉ pre.map Caption.index →
      Ev.captionAudioReady c'.index ∉ TTSWorker.run o (pre ++ cap :: post)) ∧
    (∀ a ∈ [0, 1, 2, 3, 4],
      Ev.callTts pre.length a ∈ TTSWorker.run o (pre ++ cap :: post)) ∧
    (Ev.sleep 1 ∈ TTSWorker.run o (pre ++ cap :: post) ∧
     Ev.sleep 2 ∈ TTSWorker.run o (pre ++ cap :: post) ∧
     Ev.sleep 4 ∈ TTSWorker.run o (pre ++ cap :: post) ∧
     Ev.sleep 8 ∈ TTSWorker.run o (pre ++ cap :: post)) := by
  set total := if (pre ++ cap :: post).length = 0 then 1
    else (pre ++ cap :: post).length with htot
  obtain ⟨B, hB1, hB2, hB3⟩ := tts_runAux_ok_prefix o total pre (cap :: post) 0
    (fun k h1 h2 => hok k (by simp at h2; omega))
  rw [Nat.zero_add] at hB1 hB2 hB3
  have hattf := tts_attempts_all_fail o pre.length hfail
  have hfc := tts_runAux_fail_case o total pre.length cap post hk
    (by rw [hattf])
  have hrun : TTSWorker.run o (pre ++ cap :: post) =
      (B ++ [Ev.callTts pre.length 0, Ev.sleep 1, Ev.callTts pre.length 1,
        Ev.sleep 2, Ev.callTts pre.length 2, Ev.sleep 4,
        Ev.callTts pre.length 3, Ev.sleep 8, Ev.callTts pre.length 4]) ++
        [Ev.errorMsg TTSWorker.failMsg] ++ [Ev.finished] := by
    rw [TTSWorker.run, ← htot]
    rw [show (TTSWorker.runAux o total 0 (pre ++ cap :: post)).1 =
        B ++ (TTSWorker.runAux o total pre.length (cap :: post)).1 from hB1]
    rw [show (TTSWorker.runAux o total 0 (pre ++ cap :: post)).2 =
        (TTSWorker.runAux o total pre.length (cap :: post)).2 from hB2]
    rw [hfc, hattf]
  have hBcall : ∀ p a, pre.length < p → Ev.callTts p a ∉ B := by
    intro p a hp hmem
    rcases hB3 (Ev.callTts p a) hmem with ⟨p', a', hpa, hplt⟩ | ⟨x, hx, _⟩ | ⟨q, hq⟩ | ⟨q, hq⟩
    · injection hpa with h1 h2
      subst h1
      omega
    · exact Ev.noConfusion hx
    · exact Ev.noConfusion hq
    · exact Ev.noConfusion hq
  have hBready : ∀ x, x ∉ pre.map Caption.index → Ev.captionAudioReady x ∉ B := by
    intro x hx hmem
    rcases hB3 (Ev.captionAudioReady x) hmem with ⟨p', a', hpa, _⟩ | ⟨y, hy, hym⟩ | ⟨q, hq⟩ | ⟨q, hq⟩
    · exact Ev.noConfusion hpa
    · injection hy with h1
      subst h1
      exact hx hym
    · exact Ev.noConfusion hq
    · exact Ev.noConfusion hq
  refine ⟨?_, ?_, ?_, ?_, ?_, ?_⟩
  · refine ⟨B ++ [Ev.callTts pre.length 0, Ev.sleep 1, Ev.callTts pre.length 1,
      Ev.sleep 2, Ev.callTts pre.length 2, Ev.sleep 4,
      Ev.callTts pre.length 3, Ev.sleep 8, Ev.callTts pre.length 4], ?_, ?_⟩
    · rw [hrun]
      simp [List.append_assoc]
    · intro p a hp hmem
      rcases List.mem_append.mp hmem with h' | h'
      · exact hBcall p a hp h'
      · simp only [List.mem_cons] at h'
        rcases h' with h2 | h2 | h2 | h2 | h2 | h2 | h2 | h2 | h2 | h2
        all_goals first
          | (injection h2 with e1 e2; omega)
          | exact Ev.noConfusion h2
          | simp at h2
  · rw [hrun]
    simp
  · intro p a hp hmem
    rw [hrun] at hmem
    simp only [List.mem_append] at hmem
    rcases hmem with ((h' | h') | h') | h'
    · exact hBcall p a hp h'
    · simp only [List.mem_cons] at h'
      rcases h' with h2 | h2 | h2 | h2 | h2 | h2 | h2 | h2 | h2 | h2
      all_goals first
        | (injection h2 with e1 e2; omega)
        | exact Ev.noConfusion h2
        | simp at h2
    · simp at h'
    · simp at h'
  · intro c' hc' hcidx hmem
    rw [hrun] at hmem
    simp only [List.mem_append] at hmem
    rcases hmem with ((h' | h') | h') | h'
    · exact hBready c'.index hcidx h'
    · simp at h'
    · simp at h'
    · simp at h'
  · intro a ha
    rw [hrun]
    simp only [List.mem_append]
    refine Or.inl (Or.inl (Or.inr ?_))
    simp only [List.mem_cons] at ha ⊢
    rcases ha with rfl | rfl | rfl | rfl | rfl | h
    · tauto
    · tauto
    · tauto
    · tauto
    · tauto
    · simp at h
  · refine ⟨?_, ?_, ?_, ?_⟩ <;>
      (rw [hrun]; simp)

/-- C2: retry asymmetry.  Translate: when every attempt (3, with the
fixed 2 s delay between attempts) for one segment raises, the job skips
that segment once, leaves its dub text untouched, still translates
every other segment, emits no error and makes all three attempts.
Synthesize: when every attempt (5, with waits doubling 1 s, 2 s, 4 s,
8 s) for one segment fails, the run ends in the error signal followed
only by `finished` — no synthesis call is made for any later segment. -/
theorem C2_retry_asymmetry :
    (∀ (o : ℕ → ℕ → TransResult) (pre post : List Caption) (cap : Caption),
      (∀ a, (o pre.length a).isExn = true) →
      (∀ i, i ≠ pre.length → ∃ s, o i 1 = TransResult.ok s ∧ s ≠ "") →
      cap.index ∉ (pre ++ post).map Caption.index →
      (TranslateWorker.run o (fun _ => false) (pre ++ cap :: post)).count
          (Ev.captionSkipped cap.index) = 1 ∧
      (∀ s, Ev.captionTranslated cap.index s ∉
          TranslateWorker.run o (fun _ => false) (pre ++ cap :: post)) ∧
      (∀ c' ∈ pre ++ post, ∃ s, Ev.captionTranslated c'.index s ∈
          TranslateWorker.run o (fun _ => false) (pre ++ cap :: post)) ∧
      (∀ m, Ev.errorMsg m ∉
          TranslateWorker.run o (fun _ => false) (pre ++ cap :: post)) ∧
      (TranslateWorker.run o (fun _ => false) (pre ++ cap :: post)).count
          (Ev.sleep TranslateWorker.RETRY_DELAY) = 2 ∧
      (∀ a ∈ [1, 2, 3], Ev.callTranslate pre.length a ∈
          TranslateWorker.run o (fun _ => false) (pre ++ cap :: post))) ∧
    (∀ (o : ℕ → ℕ → Bool) (pre post : List Caption) (cap : Caption),
      (∀ a, o pre.length a = false) →
      (∀ i, i ≠ pre.length → o i 0 = true) →
      cap.khmer_text ≠ "" →
      (∃ evs, TTSWorker.run o (pre ++ cap :: post) =
          evs ++ [Ev.errorMsg TTSWorker.failMsg, Ev.finished] ∧
        (∀ p a, pre.length < p → Ev.callTts p a ∉ evs)) ∧
      Ev.errorMsg TTSWorker.failMsg ∈ TTSWorker.run o (pre ++ cap :: post) ∧
      (∀ p a, pre.length < p →
        Ev.callTts p a ∉ TTSWorker.run o (pre ++ cap :: post)) ∧
      (∀ c' ∈ post, c'.index ∉ pre.map Caption.index →
        Ev.captionAudioReady c'.index ∉ TTSWorker.run o (pre ++ cap :: post)) ∧
      (∀ a ∈ [0, 1, 2, 3, 4],
        Ev.callTts pre.length a ∈ TTSWorker.run o (pre ++ cap :: post)) ∧
      (Ev.sleep 1 ∈ TTSWorker.run o (pre ++ cap :: post) ∧
       Ev.sleep 2 ∈ TTSWorker.run o (pre ++ cap :: post) ∧
       Ev.sleep 4 ∈ TTSWorker.run o (pre ++ cap :: post) ∧
       Ev.sleep 8 ∈ TTSWorker.run o (pre ++ cap :: post))) :=
  ⟨fun o pre post cap h1 h2 h3 => translate_exhaustion_spec o pre post cap h1 h2 h3,
   fun o pre post cap h1 h2 h3 => tts_exhaustion_spec o pre post cap h1 h2 h3⟩

/-- The caption used in the C2 witness. -/
def capW : Caption :=
  { index := 1, start := 0, end_ := 1, original_text := "hi" }

/-- Witness for C2: one segment whose three translation attempts all
raise is skipped exactly once while the job keeps going. -/
theorem C2_retry_asymmetry_witness :
    (TranslateWorker.run
        (fun i _ => if i = 0 then TransResult.exn "x" else TransResult.ok "y")
        (fun _ => false) ([] ++ capW :: [])).count
      (Ev.captionSkipped capW.index) = 1 :=
  (C2_retry_asymmetry.1
    (fun i _ => if i = 0 then TransResult.exn "x" else TransResult.ok "y")
    [] [] capW (fun a => rfl)
    (fun i hi => ⟨"y", by simp [show ¬ i = 0 from by simpa using hi], by simp⟩)
    (by simp)).1
